import Mathlib

/-!
# Verification of the go-xml core against its specification

Shallow embedding of the central data model and operations of the go-xml
toolkit (OrderedMap, canonicalizer, deterministic encoder, query engine,
soup sanitizer, charset translator, type inference, force-array child
assignment, streaming producer loop), together with theorems settling the
spec claims about them.

Modelling conventions:
* Go `interface{}` values are the inductive `Value`; Go `nil` never occurs
  in the positions the embedded code manipulates (absence is `Option`).
* An `*OrderedMap` (a key-order slice plus a hash map, whose keys are kept
  duplicate-free by `Put`) is embedded as its entry list
  `List (String × Value)`: the list order is the key order and lookup is
  `omGet` (first match).
* Go `float64` values are carried as exact rationals; IEEE-754 rounding and
  Go's shortest-form float formatting are not modelled (no claim below
  depends on either).
* Functions that recurse through the tree are written with an explicit
  `fuel` argument (structural recursion, so that concrete inputs evaluate
  inside the kernel); the exported wrappers supply `sizeOf`-based fuel that
  is always sufficient.
-/

set_option maxRecDepth 16384

namespace GoXml

/-- The dynamic values stored in trees: scalars, `*OrderedMap` (as its entry
list), plain `map[string]any` (as an association list; Go iterates such maps
in unspecified order, the embedded order stands for one such order and the
embedded code sorts keys wherever the Go code does), and `[]any`. -/
inductive Value where
  | vStr (s : String)
  | vInt (n : Int)
  | vFloat (q : Rat)
  | vBool (b : Bool)
  | vMap (entries : List (String × Value))
  | vPmap (entries : List (String × Value))
  | vArr (items : List Value)
deriving Inhabited

/-- Entry list of an `*OrderedMap` (keys in insertion order). -/
abbrev OMap := List (String × Value)

/-- `OrderedMap.Get` (part_006/part_007): map lookup; `none` models Go's
`nil` for an absent key.  With the duplicate-free key invariant the first
match is the only match. -/
def omGet : OMap → String → Option Value
  | [], _ => none
  | (k0, v0) :: rest, k => if k0 = k then some v0 else omGet rest k

/-- `OrderedMap.Put`: an existing key keeps its position and gets the new
value; a new key is appended. -/
def omPut : OMap → String → Value → OMap
  | [], k, v => [(k, v)]
  | (k0, v0) :: rest, k, v =>
      if k0 = k then (k0, v) :: rest else (k0, v0) :: omPut rest k v

/-- `OrderedMap.Keys`: snapshot of the keys in order. -/
def omKeys (es : OMap) : List String := es.map Prod.fst

/-- `OrderedMap.Len`. -/
def omLen (es : OMap) : Nat := es.length

/-- `OrderedMap.Clone` (part_007 lines 131-140): copies the key slice and
re-inserts every `values` binding into a fresh hash map; the resulting
structure holds exactly the same entries, so in the entry-list embedding it
is the identity. -/
def omClone (es : OMap) : OMap := es

/-! ## String utilities (Go `strings` / byte-level helpers)

Go compares and scans strings byte by byte; on valid UTF-8 the bytewise
order coincides with the code-point lexicographic order used here. -/

/-- Bytewise (code-point lexicographic) comparison behind Go's
`sort.Strings`. -/
def charListLe : List Char → List Char → Bool
  | [], _ => true
  | _ :: _, [] => false
  | a :: as, b :: bs =>
      if a.toNat < b.toNat then true
      else if b.toNat < a.toNat then false
      else charListLe as bs

/-- Go string `<=` (bytewise). -/
def goStrLe (a b : String) : Bool := charListLe a.data b.data

theorem charListLe_total : ∀ as bs : List Char, charListLe as bs ∨ charListLe bs as := by
  intro as
  induction as with
  | nil => intro bs; left; rfl
  | cons a as ih =>
      intro bs
      cases bs with
      | nil => right; rfl
      | cons b bs =>
          by_cases hab : a.toNat < b.toNat
          · left; simp [charListLe, hab]
          · by_cases hba : b.toNat < a.toNat
            · right; simp [charListLe, hba, hab]
            · have := ih bs
              rcases this with h | h
              · left; simp [charListLe, hab, hba, h]
              · right; simp [charListLe, hab, hba, h]

theorem charListLe_trans : ∀ as bs cs : List Char,
    charListLe as bs → charListLe bs cs → charListLe as cs := by
  intro as
  induction as with
  | nil => intro bs cs _ _; rfl
  | cons a as ih =>
      intro bs cs h1 h2
      cases bs with
      | nil => simp [charListLe] at h1
      | cons b bs =>
          cases cs with
          | nil => simp [charListLe] at h2
          | cons c cs =>
              simp only [charListLe] at h1 h2 ⊢
              by_cases hab : a.toNat < b.toNat <;> by_cases hba : b.toNat < a.toNat <;>
                by_cases hbc : b.toNat < c.toNat <;> by_cases hcb : c.toNat < b.toNat <;>
                simp_all <;> try omega
              all_goals
                by_cases hac : a.toNat < c.toNat <;> by_cases hca : c.toNat < a.toNat <;>
                  simp_all <;> try omega
              exact Or.inr (ih bs cs h1 h2)

theorem char_eq_of_toNat_eq {a b : Char} (h : a.toNat = b.toNat) : a = b :=
  Char.ext (UInt32.ext h)

theorem charListLe_antisymm : ∀ as bs : List Char,
    charListLe as bs → charListLe bs as → as = bs := by
  intro as
  induction as with
  | nil =>
      intro bs _ h2
      cases bs with
      | nil => rfl
      | cons b bs => simp [charListLe] at h2
  | cons a as ih =>
      intro bs h1 h2
      cases bs with
      | nil => simp [charListLe] at h1
      | cons b bs =>
          simp only [charListLe] at h1 h2
          by_cases hab : a.toNat < b.toNat <;> by_cases hba : b.toNat < a.toNat <;>
            simp [hab, hba] at h1 h2
          · omega
          · have hn : a.toNat = b.toNat := by omega
            have : a = b := char_eq_of_toNat_eq hn
            subst this
            rw [ih bs h1 h2]

/-- Insertion step of the sort used for `sort.Strings`. -/
def insertSorted (x : String) : List String → List String
  | [] => [x]
  | y :: ys => if goStrLe x y then x :: y :: ys else y :: insertSorted x ys

/-- Go `sort.Strings` sorts in place in bytewise order; duplicate-free
inputs (the only ones the embedded code sorts) have a unique sorted
arrangement, so an insertion sort models it exactly. -/
def sortStrings (l : List String) : List String := l.foldr insertSorted []

/-- Prefix test on the underlying bytes (Go `strings.HasPrefix`). -/
def strStartsWith (s p : String) : Bool := p.data.isPrefixOf s.data

/-- Suffix test on the underlying bytes (Go `strings.HasSuffix`). -/
def strEndsWith (s p : String) : Bool := p.data.isSuffixOf s.data

/-- Drop the first `n` characters (Go slicing `s[n:]` at rune boundaries). -/
def strDrop (s : String) (n : Nat) : String := String.mk (s.data.drop n)

/-- Take the first `n` characters (Go slicing `s[:n]`). -/
def strTake (s : String) (n : Nat) : String := String.mk (s.data.take n)

/-- Leftmost, non-overlapping replacement of every occurrence of `old` by
`nw` (Go `strings.ReplaceAll` / `bytes.ReplaceAll`), with explicit fuel
(consumed once per scanned position; `fuel = length of the subject`
always suffices). -/
def replaceAllL : Nat → List Char → List Char → List Char → List Char
  | 0, s, _, _ => s
  | _ + 1, [], _, _ => []
  | n + 1, c :: rest, old, nw =>
      if old ≠ [] ∧ old.isPrefixOf (c :: rest) then
        nw ++ replaceAllL n ((c :: rest).drop old.length) old nw
      else
        c :: replaceAllL n rest old nw

/-- Go `strings.ReplaceAll`. -/
def goReplaceAll (s old nw : String) : String :=
  String.mk (replaceAllL s.data.length s.data old.data nw.data)

/-- `escapeText` (helper_test.go, canonicalizer): sequential replacements of
`&`, `<`, `>`, CR. -/
def escapeText (s : String) : String :=
  goReplaceAll (goReplaceAll (goReplaceAll (goReplaceAll s "&" "&amp;") "<" "&lt;") ">" "&gt;") "\r" "&#xD;"

/-- `escapeAttr` (helper_test.go, canonicalizer): `escapeText` plus quote,
newline, tab. -/
def escapeAttr (s : String) : String :=
  goReplaceAll (goReplaceAll (goReplaceAll (escapeText s) "\"" "&quot;") "\n" "&#xA;") "\t" "&#x9;"

/-- Rendering of a float value for `fmt.Sprintf("%v", _)`.  Go prints the
shortest decimal form of the IEEE-754 double; this embedding carries exact
rationals and prints them as `Rat.repr` does.  No claim below depends on
the rendering of a float. -/
def goFormatFloat (q : Rat) : String :=
  if q.den = 1 then toString q.num else toString q.num ++ "/" ++ toString q.den

/-- `fmt.Sprintf("%v", v)` for the values the embedded code prints: strings
print verbatim, ints in decimal, bools as `true`/`false`.  Go's `%v` of a
composite value depends on map iteration order; it is rendered here by a
fixed placeholder (no claim depends on it, and no test input below reaches
this case). -/
def sprintfV : Value → String
  | .vStr s => s
  | .vInt n => toString n
  | .vFloat q => goFormatFloat q
  | .vBool true => "true"
  | .vBool false => "false"
  | .vMap _ => "&(OrderedMap)"
  | .vPmap _ => "map[...]"
  | .vArr _ => "[...]"

/-! ## Canonicalizer (helper_test.go lines 236-341: `Canonicalize`,
`writeCanonical`, `writeMapCanonical`)

`Canonicalize` returns `([]byte, error)` in Go but every `return` site
passes a nil error (the only error sources are buffer writes, which cannot
fail), so the embedding returns the byte string directly. -/

/-- Concatenation of a list of strings (successive buffer writes). -/
def strConcat (l : List String) : String := l.foldr (fun a b => a ++ b) ""

/-- The attribute segment of `writeMapCanonical`: `@`-keys collected in key
order, sorted with `sort.Strings`, each emitted as
`space name="escaped value"`.  A key always resolves via `Get`; the `none`
branch mirrors Go's `fmt.Sprintf("%v", nil)` on a nil value. -/
def canonAttrItem (es : OMap) (k : String) : String :=
  " " ++ strDrop k 1 ++ "=\"" ++
    escapeAttr (match omGet es k with
      | some v => sprintfV v
      | none => "<nil>") ++ "\""

/-- The attribute loop of `writeMapCanonical`. -/
def canonAttrs (es : OMap) : String :=
  strConcat ((sortStrings ((omKeys es).filter (fun k => strStartsWith k "@"))).map
    (canonAttrItem es))

/-- Child predicate of the content loop of `writeMapCanonical`: every key
that is neither an attribute nor `#text` is serialized as a child. -/
def canonChildPred (k : String) : Bool := !(strStartsWith k "@") && k != "#text"

/-- `#text` segment of `writeMapCanonical`. -/
def canonText (es : OMap) : String :=
  match omGet es "#text" with
  | some tv => escapeText (sprintfV tv)
  | none => ""

/-- Child segment of `writeMapCanonical` (the loop over all keys, skipping
attributes and `#text`), parametric in the recursive serializer. -/
def canonChildItem (recv : Value → String → String) (es : OMap) (k : String) : String :=
  match omGet es k with
  | some v => recv v k
  | none => escapeText "<nil>"

/-- The child loop itself. -/
def canonChild (recv : Value → String → String) (es : OMap) : String :=
  strConcat ((omKeys es).map (fun k =>
    if canonChildPred k then canonChildItem recv es k else ""))

/-- The `hasContent` flag of `writeMapCanonical`: set when `#text` is
present or the key loop found any child key. -/
def canonHasContent (es : OMap) : Bool :=
  (omGet es "#text").isSome || !((omKeys es).filter canonChildPred).isEmpty

/-- Body of `writeMapCanonical`, parametric in the recursive serializer
used for child values. -/
def canonMapBody (recv : Value → String → String) (es : OMap) (tag : String) : String :=
  (if tag ≠ "" then "<" ++ tag else "") ++ canonAttrs es ++
    (if tag ≠ "" then ">" else "") ++ canonText es ++ canonChild recv es ++
    (if canonHasContent es then "</" ++ tag ++ ">" else "/>")

/-- `writeCanonical`: dispatch on the dynamic type of the value.  A plain
`map[string]any` is converted to an `OrderedMap` on the fly (Go inserts in
map-iteration order; the embedded entry order stands for that order) and
then serialized like an `OrderedMap`.  Fuel decreases once per nesting
level; the wrappers below always supply enough. -/
def canonV : Nat → Value → String → String
  | 0, _, _ => ""
  | n + 1, v, tag =>
      match v with
      | .vMap es => canonMapBody (canonV n) es tag
      | .vPmap es => canonMapBody (canonV n) es tag
      | .vArr items => strConcat (items.map (fun it => canonV n it tag))
      | .vStr s => escapeText s
      | other => escapeText (sprintfV other)

mutual

/-- Structural size of a value, used to compute sufficient fuel for the
fuel-indexed recursions (one fuel unit is spent per nesting level, and
`sizeV` dominates the nesting depth). -/
def sizeV : Value → Nat
  | .vStr _ => 1
  | .vInt _ => 1
  | .vFloat _ => 1
  | .vBool _ => 1
  | .vMap es => 1 + sizeEntries es
  | .vPmap es => 1 + sizeEntries es
  | .vArr items => 1 + sizeItems items

/-- Size of an entry list. -/
def sizeEntries : List (String × Value) → Nat
  | [] => 0
  | (_, v) :: rest => 1 + sizeV v + sizeEntries rest

/-- Size of a value list. -/
def sizeItems : List Value → Nat
  | [] => 0
  | v :: rest => 1 + sizeV v + sizeItems rest

end

/-- `Canonicalize`: serializes the root with an empty tag context. -/
def Canonicalize (v : Value) : String := canonV (2 * sizeV v + 2) v ""

/-! ## Order lemmas for `sortStrings` and `omGet` -/

theorem goStrLe_total (a b : String) : goStrLe a b ∨ goStrLe b a :=
  charListLe_total a.data b.data

theorem goStrLe_trans {a b c : String} (h1 : goStrLe a b) (h2 : goStrLe b c) :
    goStrLe a c :=
  charListLe_trans a.data b.data c.data h1 h2

theorem goStrLe_antisymm {a b : String} (h1 : goStrLe a b) (h2 : goStrLe b a) :
    a = b := by
  have h := charListLe_antisymm a.data b.data h1 h2
  cases a; cases b
  exact congrArg String.mk h

instance : IsAntisymm String (fun a b => goStrLe a b = true) :=
  ⟨fun _ _ h1 h2 => goStrLe_antisymm h1 h2⟩

theorem insertSorted_perm (x : String) (l : List String) :
    (insertSorted x l).Perm (x :: l) := by
  induction l with
  | nil => simp [insertSorted]
  | cons y ys ih =>
      by_cases h : goStrLe x y
      · simp [insertSorted, h]
      · simp only [insertSorted, h, Bool.false_eq_true, ite_false]
        exact (List.Perm.cons y ih).trans (List.Perm.swap x y ys)

theorem sortStrings_perm (l : List String) : (sortStrings l).Perm l := by
  induction l with
  | nil => simp [sortStrings]
  | cons x xs ih =>
      have : sortStrings (x :: xs) = insertSorted x (sortStrings xs) := rfl
      rw [this]
      exact (insertSorted_perm x (sortStrings xs)).trans (List.Perm.cons x ih)

theorem insertSorted_sorted (x : String) (l : List String)
    (h : l.Pairwise (fun a b => goStrLe a b = true)) :
    (insertSorted x l).Pairwise (fun a b => goStrLe a b = true) := by
  induction l with
  | nil => simp [insertSorted]
  | cons y ys ih =>
      by_cases hxy : goStrLe x y
      · simp only [insertSorted, hxy, ite_true]
        refine List.Pairwise.cons ?_ h
        intro b hb
        rcases List.mem_cons.mp hb with rfl | hb2
        · exact hxy
        · exact goStrLe_trans hxy (List.rel_of_pairwise_cons h hb2)
      · simp only [insertSorted, hxy, Bool.false_eq_true, ite_false]
        have hyx : goStrLe y x := (goStrLe_total x y).resolve_left hxy
        have hys := List.Pairwise.of_cons h
        refine List.Pairwise.cons ?_ (ih hys)
        intro b hb
        have hbx : b ∈ x :: ys := (insertSorted_perm x ys).subset hb
        rcases List.mem_cons.mp hbx with rfl | hb2
        · exact hyx
        · exact List.rel_of_pairwise_cons h hb2

theorem sortStrings_sorted (l : List String) :
    (sortStrings l).Pairwise (fun a b => goStrLe a b = true) := by
  induction l with
  | nil => simp [sortStrings]
  | cons x xs ih => exact insertSorted_sorted x (sortStrings xs) ih

theorem sortStrings_congr_perm {l1 l2 : List String} (h : l1.Perm l2) :
    sortStrings l1 = sortStrings l2 :=
  List.eq_of_perm_of_sorted
    ((sortStrings_perm l1).trans (h.trans (sortStrings_perm l2).symm))
    (sortStrings_sorted l1) (sortStrings_sorted l2)

theorem omGet_eq_none_iff (es : OMap) (k : String) :
    omGet es k = none ↔ k ∉ omKeys es := by
  induction es with
  | nil => simp [omGet, omKeys]
  | cons e rest ih =>
      obtain ⟨k0, v0⟩ := e
      by_cases h : k0 = k
      · subst h; simp [omGet, omKeys]
      · simp [omGet, omKeys, h, ih, Ne.symm h]

theorem omGet_eq_some_iff (es : OMap) (hnd : (omKeys es).Nodup) (k : String) (v : Value) :
    omGet es k = some v ↔ (k, v) ∈ es := by
  induction es with
  | nil => simp [omGet]
  | cons e rest ih =>
      obtain ⟨k0, v0⟩ := e
      rw [omKeys, List.map_cons, List.nodup_cons] at hnd
      by_cases h : k0 = k
      · subst h
        constructor
        · intro hv
          have hv0 : v0 = v := by simpa [omGet] using hv
          subst hv0
          exact List.mem_cons_self _ _
        · intro hm
          rcases List.mem_cons.mp hm with he | hmem
          · have hv0 : v = v0 := congrArg Prod.snd he
            simp [omGet, hv0]
          · exact absurd (List.mem_map_of_mem Prod.fst hmem) hnd.1
      · simp only [omGet, if_neg h, List.mem_cons]
        rw [ih hnd.2]
        constructor
        · exact Or.inr
        · rintro (he | hmem)
          · exact absurd (congrArg Prod.fst he).symm h
          · exact hmem

theorem omGet_congr_perm {es es' : OMap} (hnd : (omKeys es).Nodup)
    (hperm : es.Perm es') (k : String) : omGet es k = omGet es' k := by
  have hkeys : (omKeys es).Perm (omKeys es') := hperm.map Prod.fst
  have hnd' : (omKeys es').Nodup := hkeys.nodup_iff.mp hnd
  cases hv : omGet es k with
  | none =>
      have := (omGet_eq_none_iff es k).mp hv
      exact ((omGet_eq_none_iff es' k).mpr (fun hm => this (hkeys.symm.subset hm))).symm
  | some v =>
      have := (omGet_eq_some_iff es hnd k v).mp hv
      exact ((omGet_eq_some_iff es' hnd' k v).mpr (hperm.subset this)).symm

theorem sizeEntries_congr_perm {es es' : OMap} (h : es.Perm es') :
    sizeEntries es = sizeEntries es' := by
  induction h with
  | nil => rfl
  | cons x _ ih => obtain ⟨k, v⟩ := x; simp [sizeEntries, ih]
  | swap x y _ =>
      obtain ⟨k1, v1⟩ := x; obtain ⟨k2, v2⟩ := y
      simp [sizeEntries]; omega
  | trans _ _ ih1 ih2 => omega

theorem string_empty_append (s : String) : "" ++ s = s := by
  cases s; rfl

theorem strConcat_map_ite {a : Type} (l : List a) (pred : a → Bool) (g : a → String) :
    strConcat (l.map (fun k => if pred k then g k else "")) =
      strConcat ((l.filter pred).map g) := by
  induction l with
  | nil => rfl
  | cons x xs ih =>
      cases h : pred x <;>
        simp only [List.map_cons, List.filter_cons, h, ite_true, ite_false, Bool.false_eq_true,
          strConcat, List.foldr_cons, string_empty_append] <;>
        rw [show strConcat (List.map (fun k => if pred k = true then g k else "") xs) =
          List.foldr (fun a b => a ++ b) ""
            (List.map (fun k => if pred k = true then g k else "") xs) from rfl] at ih <;>
        rw [ih] <;> rfl

/-! ## C2: canonical form is clone-stable and attribute order is
insertion-order independent -/

theorem canonAttrs_congr (es es' : OMap)
    (hget : ∀ k, omGet es k = omGet es' k)
    (hkeysperm : (omKeys es).Perm (omKeys es')) :
    canonAttrs es = canonAttrs es' := by
  unfold canonAttrs
  rw [sortStrings_congr_perm (hkeysperm.filter _)]
  congr 1
  apply List.map_congr_left
  intro k _
  unfold canonAttrItem
  rw [hget k]

theorem childKeys_filter_congr (es es' : OMap)
    (hchild : (omKeys es).filter (fun k => !(strStartsWith k "@")) =
      (omKeys es').filter (fun k => !(strStartsWith k "@"))) :
    (omKeys es).filter canonChildPred = (omKeys es').filter canonChildPred := by
  have e1 : ∀ l : List String, l.filter canonChildPred =
      (l.filter (fun k => !(strStartsWith k "@"))).filter (fun k => k != "#text") := by
    intro l
    rw [List.filter_filter]
    apply List.filter_congr
    intro k _
    simp [canonChildPred, Bool.and_comm]
  rw [e1, e1, hchild]

theorem canonChild_congr (recv : Value → String → String) (es es' : OMap)
    (hget : ∀ k, omGet es k = omGet es' k)
    (hchild : (omKeys es).filter (fun k => !(strStartsWith k "@")) =
      (omKeys es').filter (fun k => !(strStartsWith k "@"))) :
    canonChild recv es = canonChild recv es' := by
  unfold canonChild
  rw [strConcat_map_ite, strConcat_map_ite, childKeys_filter_congr es es' hchild]
  congr 1
  apply List.map_congr_left
  intro k _
  unfold canonChildItem
  rw [hget k]

theorem canonMapBody_congr (recv : Value → String → String) (es es' : OMap) (tag : String)
    (hget : ∀ k, omGet es k = omGet es' k)
    (hkeysperm : (omKeys es).Perm (omKeys es'))
    (hchild : (omKeys es).filter (fun k => !(strStartsWith k "@")) =
      (omKeys es').filter (fun k => !(strStartsWith k "@"))) :
    canonMapBody recv es tag = canonMapBody recv es' tag := by
  unfold canonMapBody
  rw [canonAttrs_congr es es' hget hkeysperm, canonChild_congr recv es es' hget hchild]
  have htext : canonText es = canonText es' := by
    unfold canonText
    rw [hget "#text"]
  have hhas : canonHasContent es = canonHasContent es' := by
    unfold canonHasContent
    rw [hget "#text", childKeys_filter_congr es es' hchild]
  rw [htext, hhas]

theorem canonV_vMap_congr (es es' : OMap) (tag : String)
    (hget : ∀ k, omGet es k = omGet es' k)
    (hkeysperm : (omKeys es).Perm (omKeys es'))
    (hchild : (omKeys es).filter (fun k => !(strStartsWith k "@")) =
      (omKeys es').filter (fun k => !(strStartsWith k "@"))) :
    ∀ fuel, canonV fuel (.vMap es) tag = canonV fuel (.vMap es') tag := by
  intro fuel
  cases fuel with
  | zero => rfl
  | succ n => exact canonMapBody_congr (canonV n) es es' tag hget hkeysperm hchild

/-- C2.  For every OrderedMap tree `t`, `Canonicalize t = Canonicalize
(t.Clone())`; and the canonical bytes of every element are invariant under
re-ordering the `@`-attribute entries (same attribute bindings, same
non-attribute entries in the same order), because the canonicalizer sorts
attribute names with `sort.Strings`; moreover the attribute-name list it
emits is in (bytewise) lexicographic order. -/
theorem c2_canonicalize_clone_eq_and_sorted_attrs (es es' : OMap) (tag : String)
    (hnd : (omKeys es).Nodup) (hperm : es.Perm es')
    (hchild : (omKeys es).filter (fun k => !(strStartsWith k "@")) =
      (omKeys es').filter (fun k => !(strStartsWith k "@"))) :
    (∀ t : OMap, Canonicalize (.vMap (omClone t)) = Canonicalize (.vMap t)) ∧
    Canonicalize (.vMap es') = Canonicalize (.vMap es) ∧
    (∀ fuel, canonV fuel (.vMap es') tag = canonV fuel (.vMap es) tag) ∧
    (sortStrings ((omKeys es).filter (fun k => strStartsWith k "@"))).Pairwise
      (fun a b => goStrLe a b = true) := by
  have hget : ∀ k, omGet es k = omGet es' k := omGet_congr_perm hnd hperm
  have hkp : (omKeys es).Perm (omKeys es') := hperm.map Prod.fst
  refine ⟨fun _ => rfl, ?_, ?_, sortStrings_sorted _⟩
  · unfold Canonicalize
    have hsz : sizeV (.vMap es) = sizeV (.vMap es') := by
      simp [sizeV, sizeEntries_congr_perm hperm]
    rw [← hsz]
    exact (canonV_vMap_congr es es' "" hget hkp hchild _).symm
  · intro fuel
    exact (canonV_vMap_congr es es' tag hget hkp hchild fuel).symm

/-- Witness for C2 at a concrete pair of maps that differ only in the
insertion order of their two attributes. -/
theorem c2_witness :
    ((omKeys [(("@z" : String), Value.vStr "1"), ("@a", Value.vStr "2"),
        ("c", Value.vStr "x")]).Nodup) ∧
    Canonicalize (.vMap [(("@a" : String), Value.vStr "2"), ("@z", Value.vStr "1"),
        ("c", Value.vStr "x")]) =
      Canonicalize (.vMap [(("@z" : String), Value.vStr "1"), ("@a", Value.vStr "2"),
        ("c", Value.vStr "x")]) := by
  constructor
  · decide
  · exact (c2_canonicalize_clone_eq_and_sorted_attrs
      [("@z", Value.vStr "1"), ("@a", Value.vStr "2"), ("c", Value.vStr "x")]
      [("@a", Value.vStr "2"), ("@z", Value.vStr "1"), ("c", Value.vStr "x")]
      "" (by decide)
      (List.Perm.swap ("@a", Value.vStr "2") ("@z", Value.vStr "1") [("c", Value.vStr "x")])
      (by decide)).2.1

/-! ## C1: what the canonicalizer actually emits for empty elements and at
the root

`writeMapCanonical` closes the open tag with `>` *before* checking
`hasContent`, then writes the literal `/>` for a content-free element, and
always writes `"</" ++ tagName ++ ">"` when content exists — also when
`tagName` is empty (the root call from `Canonicalize`).  An empty element
therefore serializes as `<t>/>` (neither `<t></t>` nor `<t/>`), and a root
fragment gains a trailing `</>` (or a bare `/>` when the root map is
empty).  The canonicalizer's own tests (`TestCanonicalize_FullStructure`,
`TestCanonicalize_Nested_Elements` in part_011) expect the fragment with no
trailing `</>`, and its doc comment promises C14N basics, so this is a code
bug rather than a spec error. -/

/-- C1.  Concrete evaluations of the embedded canonicalizer exhibiting the
divergence: an element with no text and no children comes out as `<e>/>`,
and a root invocation appends a stray `</>` to the attributes+children
fragment. -/
theorem c1_canonicalize_empty_element_and_root_bug :
    Canonicalize (.vMap [("e", .vMap [])]) = "<e>/></>" ∧
    Canonicalize (.vMap [("child", .vMap [("#text", .vStr "foo")])]) =
      "<child>foo</child></>" ∧
    ("<e>/></>" : String) ≠ "<e></e>" ∧
    ("<child>foo</child></>" : String) ≠ "<child>foo</child>" :=
  ⟨rfl, rfl, by decide, by decide⟩

/-! ## Deterministic encoder (part_015: `Encoder.Encode`, `Marshal`,
`encodeNode`, `sortedKeys`, `escapeString`)

`encodeNode`'s only error source is the writer, which cannot fail on a
buffer, so the embedding returns the emitted string. -/

/-- Encoder configuration (the fields of `config` the encoder reads). -/
structure EncCfg where
  namespaces : List (String × String)
  prettyPrint : Bool

/-- `NewEncoder` with no options. -/
def defaultEncCfg : EncCfg := ⟨[], false⟩

/-- Per-character escape of `encoding/xml.EscapeText` (the printable-ASCII
part; the substitution of invalid runes by U+FFFD is not modelled — no
claim depends on it). -/
def xmlEscapeChar (c : Char) : List Char :=
  if c = '"' then "&#34;".data
  else if c = Char.ofNat 39 then "&#39;".data
  else if c = '&' then "&amp;".data
  else if c = '<' then "&lt;".data
  else if c = '>' then "&gt;".data
  else if c = Char.ofNat 9 then "&#x9;".data
  else if c = Char.ofNat 10 then "&#xA;".data
  else if c = Char.ofNat 13 then "&#xD;".data
  else [c]

/-- `escapeString` / `xml.EscapeText` on a whole string. -/
def escapeString (s : String) : String :=
  String.mk (s.data.foldr (fun c acc => xmlEscapeChar c ++ acc) [])

/-- `sortedKeys`: lexicographically sorted keys of a plain map. -/
def sortedKeys (es : OMap) : List String := sortStrings (omKeys es)

/-- `strings.Repeat "  " depth` (the pretty-print indent unit). -/
def strRepeat (s : String) (n : Nat) : String := strConcat (List.replicate n s)

/-- `%T` of the few dynamic types `Encode` can reject. -/
def goTypeName : Value → String
  | .vStr _ => "string"
  | .vInt _ => "int"
  | .vFloat _ => "float64"
  | .vBool _ => "bool"
  | .vArr _ => "[]interface \x7b\x7d"
  | .vMap _ => "*xml.OrderedMap"
  | .vPmap _ => "map[string]interface \x7b\x7d"

/-- The root-level namespace injection of `encodeNode` (depth 0): URLs
sorted, each emitted as `space xmlns:alias="url"`. -/
def nsString (cfg : EncCfg) : String :=
  strConcat ((sortStrings (cfg.namespaces.map Prod.fst)).map (fun u =>
    " xmlns:" ++ (((cfg.namespaces.find? (fun e => e.1 = u)).map Prod.snd).getD "") ++
      "=\"" ++ u ++ "\""))

/-- One attribute produced by the attribute-extraction loop of
`encodeNode`. -/
def encAttrItem (es : OMap) (k : String) : String :=
  " " ++ strDrop k 1 ++ "=\"" ++
    escapeString (match omGet es k with
      | some v => sprintfV v
      | none => "<nil>") ++ "\""

/-- Child predicate of `encodeNode`'s recursive loop: every key that starts
with neither `@` nor `#` is encoded as a child element. -/
def encChildPred (k : String) : Bool :=
  !(strStartsWith k "@") && !(strStartsWith k "#")

/-- Attribute segment of `encodeNode` (emitted inside the opening tag, in
`keys` order — insertion order for an `OrderedMap`, sorted for a plain
map). -/
def encAttrPart (keys : List String) (es : OMap) : String :=
  strConcat (keys.map (fun k =>
    if strStartsWith k "@" then encAttrItem es k else ""))

/-- The `cdataContent` variable of `encodeNode`. -/
def encCData (es : OMap) : String :=
  match omGet es "#cdata" with
  | some v => sprintfV v
  | none => ""

/-- Step 3 of `encodeNode`: `#cdata` (preferred when non-empty) or escaped
`#text`. -/
def encContentPart (cfg : EncCfg) (depth : Nat) (es : OMap) : String :=
  if encCData es ≠ "" then
    (if cfg.prettyPrint then "\n" ++ strRepeat "  " (depth + 1) else "") ++
      "<![CDATA[" ++ encCData es ++ "]]>"
  else
    match omGet es "#text" with
    | some cv => escapeString (sprintfV cv)
    | none => ""

/-- Step 4 of `encodeNode`: children in `keys` order, sequences repeating
the tag once per item. -/
def encChildPart (recv : String → Value → Nat → String) (keys : List String)
    (es : OMap) (depth : Nat) : String :=
  strConcat (keys.map (fun k =>
    if encChildPred k then
      (match omGet es k with
        | some (.vArr items) =>
            strConcat (items.map (fun item => recv k item (depth + 1)))
        | some v => recv k v (depth + 1)
        | none => "")
    else ""))

/-- Indent inserted before the closing tag when pretty printing and at
least one child element was emitted. -/
def encCloseIndent (cfg : EncCfg) (keys : List String) (indent : String) : String :=
  if !keys.isEmpty && !(keys.filter encChildPred).isEmpty && cfg.prettyPrint
  then indent else ""

/-- The map branch of `encodeNode` (shared by `*OrderedMap` and plain
maps).  The pieces are concatenated in the order the Go code writes them
(grouping of `++` is immaterial). -/
def encodeComplex (recv : String → Value → Nat → String) (tag : String)
    (keys : List String) (es : OMap) (cfg : EncCfg) (depth : Nat)
    (indent nsPart : String) : String :=
  indent ++ ("<" ++ (tag ++ (nsPart ++ (encAttrPart keys es ++ (">" ++
    (encContentPart cfg depth es ++ (encChildPart recv keys es depth ++
      (encCloseIndent cfg keys indent ++ ("</" ++ (tag ++ ">"))))))))))

/-- `encodeNode` (part_015): recursive emit of one node.  Fuel decreases
once per nesting level; the wrappers below always supply enough. -/
def encodeNode : Nat → String → Value → EncCfg → Nat → String
  | 0, _, _, _, _ => ""
  | n + 1, tag, value, cfg, depth =>
      let indent := if cfg.prettyPrint then "\n" ++ strRepeat "  " depth else ""
      let nsPart := if depth = 0 then nsString cfg else ""
      match value with
      | .vMap es =>
          encodeComplex (fun k v d => encodeNode n k v cfg d) tag (omKeys es) es cfg
            depth indent nsPart
      | .vPmap es =>
          encodeComplex (fun k v d => encodeNode n k v cfg d) tag (sortedKeys es) es cfg
            depth indent nsPart
      | prim =>
          indent ++ ("<" ++ (tag ++ (nsPart ++ (">" ++
            (escapeString (sprintfV prim) ++ ("</" ++ (tag ++ ">")))))))

/-- `encodeNode` with always-sufficient fuel. -/
def encodeNodeTop (tag : String) (v : Value) (cfg : EncCfg) : String :=
  encodeNode (2 * sizeV v + 2) tag v cfg 0

/-- The single-root validation and emission loop shared by the two map
shapes accepted by `Encoder.Encode`. -/
def encodeTop (cfg : EncCfg) (keys : List String) (es : OMap) : Except String String :=
  let rootCount := (keys.filter (fun k => !(strStartsWith k "#"))).length
  if rootCount ≠ 1 then .error "root must have exactly 1 element"
  else .ok (strConcat (keys.map (fun k =>
    if !(strStartsWith k "#") then
      (match omGet es k with
        | some v => encodeNodeTop k v cfg
        | none => "")
    else "")))

/-- `Encoder.Encode` (part_015 lines 34-69): `*OrderedMap` uses insertion
order, a plain map uses `sortedKeys`, anything else is rejected with an
unsupported-type error; then the root-cardinality check runs and the single
non-`#` key is emitted. -/
def goEncode (cfg : EncCfg) (data : Value) : Except String String :=
  match data with
  | .vMap es => encodeTop cfg (omKeys es) es
  | .vPmap es => encodeTop cfg (sortedKeys es) es
  | other => .error ("unsupported type for Encode: " ++ goTypeName other)

/-- `Marshal` (part_015 lines 72-79): `Encode` into a fresh buffer,
returning its contents. -/
def goMarshal (cfg : EncCfg) (data : Value) : Except String String :=
  goEncode cfg data

/-! ## C3: root cardinality -/

theorem string_append_empty (s : String) : s ++ "" = s := by
  cases s with
  | mk d =>
      show String.mk (d ++ []) = String.mk d
      rw [List.append_nil]

theorem string_data_append (a b : String) : (a ++ b).data = a.data ++ b.data := by
  cases a; cases b; rfl

theorem isPrefixOf_append_self : ∀ l t : List Char, l.isPrefixOf (l ++ t) = true := by
  intro l t
  induction l with
  | nil => simp [List.isPrefixOf]
  | cons c cs ih => simp [List.isPrefixOf, ih]

theorem strStartsWith_append2 (a b r : String) :
    strStartsWith (a ++ b ++ r) (a ++ b) = true := by
  unfold strStartsWith
  rw [string_data_append, string_data_append]
  exact isPrefixOf_append_self (a.data ++ b.data) r.data

theorem strStartsWith_lit_append (a k r : String) :
    strStartsWith (a ++ (k ++ r)) (a ++ k) = true := by
  unfold strStartsWith
  rw [string_data_append, string_data_append, string_data_append, ← List.append_assoc]
  exact isPrefixOf_append_self _ _

/-- With the default configuration (no pretty print, no namespaces) the
node emitted for tag `k` begins with `<k`. -/
theorem encodeNode_startsWith (n : Nat) (k : String) (v : Value) :
    strStartsWith (encodeNode (n + 1) k v defaultEncCfg 0) ("<" ++ k) = true := by
  cases v <;> exact strStartsWith_lit_append "<" k _

theorem encodeTop_eq_error_iff (cfg : EncCfg) (keys : List String) (es : OMap) :
    encodeTop cfg keys es = .error "root must have exactly 1 element" ↔
      (keys.filter (fun k => !(strStartsWith k "#"))).length ≠ 1 := by
  unfold encodeTop
  by_cases h : (keys.filter (fun k => !(strStartsWith k "#"))).length ≠ 1 <;> simp [h]

theorem encodeTop_single (cfg : EncCfg) (keys : List String) (es : OMap)
    (k : String) (v : Value)
    (hf : keys.filter (fun k => !(strStartsWith k "#")) = [k])
    (hv : omGet es k = some v) :
    encodeTop cfg keys es = .ok (encodeNodeTop k v cfg) := by
  unfold encodeTop
  rw [strConcat_map_ite, hf]
  simp only [List.length_cons, List.length_nil, List.map_cons, List.map_nil, strConcat,
    List.foldr_cons, List.foldr_nil, hv]
  rw [if_neg (by omega)]
  rw [string_append_empty]

/-- C3.  `Encode` (and `Marshal`) on a map fails with the root-cardinality
error exactly when the number of top-level keys not beginning with `#`
differs from 1; when that number is 1, it succeeds and the emitted document
element is the single non-`#` key. -/
theorem c3_encode_root_cardinality (cfg : EncCfg) (es : OMap) :
    (goEncode cfg (.vMap es) = .error "root must have exactly 1 element" ↔
      ((omKeys es).filter (fun k => !(strStartsWith k "#"))).length ≠ 1) ∧
    (goEncode cfg (.vPmap es) = .error "root must have exactly 1 element" ↔
      ((sortedKeys es).filter (fun k => !(strStartsWith k "#"))).length ≠ 1) ∧
    goMarshal cfg (.vMap es) = goEncode cfg (.vMap es) ∧
    (∀ k v, (omKeys es).filter (fun k => !(strStartsWith k "#")) = [k] →
      omGet es k = some v →
      goEncode cfg (.vMap es) = .ok (encodeNodeTop k v cfg) ∧
      strStartsWith (encodeNodeTop k v defaultEncCfg) ("<" ++ k) = true) := by
  refine ⟨encodeTop_eq_error_iff cfg (omKeys es) es,
    encodeTop_eq_error_iff cfg (sortedKeys es) es, rfl, ?_⟩
  intro k v hf hv
  exact ⟨encodeTop_single cfg (omKeys es) es k v hf hv,
    encodeNode_startsWith _ k v⟩

/-- Witness for C3: a two-root map is rejected, a single-root map is
emitted with its key as document element. -/
theorem c3_witness :
    goEncode defaultEncCfg (.vMap [("a", .vStr "1"), ("b", .vStr "2")]) =
        .error "root must have exactly 1 element" ∧
    goEncode defaultEncCfg (.vMap [("Order", .vStr "1"), ("#seq", .vArr [])]) =
        .ok (encodeNodeTop "Order" (.vStr "1") defaultEncCfg) ∧
    strStartsWith (encodeNodeTop "Order" (.vStr "1") defaultEncCfg) "<Order" = true := by
  refine ⟨?_, ?_, ?_⟩
  · exact (c3_encode_root_cardinality defaultEncCfg
      [("a", .vStr "1"), ("b", .vStr "2")]).1.mpr (by decide)
  · exact ((c3_encode_root_cardinality defaultEncCfg
      [("Order", .vStr "1"), ("#seq", .vArr [])]).2.2.2 "Order" (.vStr "1")
      (by decide) rfl).1
  · exact ((c3_encode_root_cardinality defaultEncCfg
      [("Order", .vStr "1"), ("#seq", .vArr [])]).2.2.2 "Order" (.vStr "1")
      (by decide) rfl).2

/-! ## Go number parsing (`strconv.Atoi`, `strconv.ParseFloat`)

`Atoi` is `ParseInt(s, 10, 0)` with `int` 64 bits wide: optional sign, at
least one decimal digit, nothing else (underscores are only accepted with
base 0), value within `int64`; any failure (including `ErrRange`) is a
non-nil error.  `ParseFloat(s, 64)` accepts the Go floating-point literal
syntax — decimal or hexadecimal mantissa with optional dot, exponent part
(mandatory `p` exponent for hex), digit-separating underscores validated by
`underscoreOK`, and the special spellings `inf` / `infinity` (optionally
signed) and `nan` — and reports `ErrRange` (a non-nil error) when the
exact value reaches the IEEE-754 double overflow threshold `2^1024 -
2^970`.  Finite values are carried as exact rationals (the rounding to the
nearest double is not modelled; no claim depends on it). -/

/-- ASCII lower-casing as Go's `lower(c) = c | 0x20`. -/
def lowerChar (c : Char) : Char := Char.ofNat (c.toNat ||| 32)

/-- Decimal digit test. -/
def charIsDigit (c : Char) : Bool := decide (48 ≤ c.toNat ∧ c.toNat ≤ 57)

/-- Digit value in the given base (10 or 16), if any. -/
def digitVal (base : Nat) (c : Char) : Option Nat :=
  if charIsDigit c then some (c.toNat - 48)
  else if base = 16 ∧ 97 ≤ (lowerChar c).toNat ∧ (lowerChar c).toNat ≤ 102 then
    some ((lowerChar c).toNat - 87)
  else none

/-- `strconv.Atoi`. -/
def goAtoi (s : String) : Option Int :=
  match s.data with
  | [] => none
  | c :: rest =>
      let neg := c = Char.ofNat 45
      let ds := if c = Char.ofNat 43 ∨ c = Char.ofNat 45 then rest else c :: rest
      if ds.isEmpty then none
      else if ds.all charIsDigit then
        let n : Nat := ds.foldl (fun a d => a * 10 + (d.toNat - 48)) 0
        if neg then (if n ≤ 2 ^ 63 then some (-(n : Int)) else none)
        else (if n ≤ 2 ^ 63 - 1 then some (n : Int) else none)
      else none

/-- A parsed `float64`: finite (exact rational), infinity, or NaN. -/
inductive FloatVal where
  | fin (q : Rat)
  | inf (neg : Bool)
  | nan
deriving DecidableEq

/-- Case-insensitive ASCII equality of character lists. -/
def ciEq (a b : List Char) : Bool := a.map lowerChar = b.map lowerChar

/-- The `special` spellings of `ParseFloat`, accepted only when they span
the whole string: `[sign]inf`, `[sign]infinity` (case-insensitive), and
unsigned `nan`. -/
def specialFull (cs : List Char) : Option FloatVal :=
  match cs with
  | [] => none
  | c :: rest =>
      let hadSign := c = Char.ofNat 43 ∨ c = Char.ofNat 45
      let neg := c = Char.ofNat 45
      let r := if hadSign then rest else cs
      if ciEq r "inf".data ∨ ciEq r "infinity".data then some (.inf neg)
      else if ¬ hadSign ∧ ciEq cs "nan".data then some .nan
      else none

/-- State of the mantissa scan of `readFloat`. -/
structure ManScan where
  mant : Nat
  afterDot : Nat
  sawDot : Bool
  sawDigits : Bool
  sawUnderscore : Bool
  rest : List Char

/-- The mantissa loop of `readFloat`: digits of the base, underscores, and
at most one dot; stops at the first other character (a second dot
included). -/
def scanMan (base : Nat) : List Char → ManScan → ManScan
  | [], st => { st with rest := [] }
  | c :: cs, st =>
      if c = Char.ofNat 95 then
        scanMan base cs { st with sawUnderscore := true }
      else if c = Char.ofNat 46 then
        if st.sawDot then { st with rest := c :: cs }
        else scanMan base cs { st with sawDot := true }
      else
        match digitVal base c with
        | some d =>
            scanMan base cs
              { st with
                mant := st.mant * base + d
                afterDot := if st.sawDot then st.afterDot + 1 else st.afterDot
                sawDigits := true }
        | none => { st with rest := c :: cs }

/-- The exponent part of `readFloat` after the `e`/`p` marker: optional
sign, then at least one decimal digit, then digits and underscores up to
the end of the string. -/
def scanExpFull (cs : List Char) : Option (Int × Bool) :=
  let (eneg, ds) :=
    match cs with
    | c :: rest =>
        if c = Char.ofNat 43 then (false, rest)
        else if c = Char.ofNat 45 then (true, rest)
        else (false, cs)
    | [] => (false, cs)
  match ds with
  | [] => none
  | d0 :: _ =>
      if ¬ charIsDigit d0 then none
      else if ds.all (fun c => charIsDigit c || c = Char.ofNat 95) then
        let e : Nat := ds.foldl (fun a c => if charIsDigit c then a * 10 + (c.toNat - 48) else a) 0
        some ((if eneg then -(e : Int) else (e : Int)),
          ds.any (fun c => c = Char.ofNat 95))
      else none

/-- The digit/underscore walk of `underscoreOK` (after sign and base
prefix): `saw` is `'0'` after a digit, `'_'` after an underscore, `'!'`
after anything else, `'^'` at the start. -/
def underscoreWalk (hex : Bool) : List Char → Char → Bool
  | [], saw => saw ≠ Char.ofNat 95
  | c :: cs, saw =>
      if charIsDigit c ∨ (hex ∧ 97 ≤ (lowerChar c).toNat ∧ (lowerChar c).toNat ≤ 102) then
        underscoreWalk hex cs (Char.ofNat 48)
      else if c = Char.ofNat 95 then
        (if saw = Char.ofNat 48 then underscoreWalk hex cs (Char.ofNat 95) else false)
      else if saw = Char.ofNat 95 then false
      else underscoreWalk hex cs (Char.ofNat 33)

/-- `strconv`'s `underscoreOK`: underscores may only separate digits (the
base prefix counting as a digit). -/
def underscoreOK (cs : List Char) : Bool :=
  let cs1 := match cs with
    | c :: rest => if c = Char.ofNat 43 ∨ c = Char.ofNat 45 then rest else cs
    | [] => cs
  match cs1 with
  | z :: p :: rest =>
      if z = Char.ofNat 48 ∧ ((lowerChar p).toNat = 98 ∨ (lowerChar p).toNat = 111 ∨
          (lowerChar p).toNat = 120) then
        underscoreWalk ((lowerChar p).toNat = 120) rest (Char.ofNat 48)
      else underscoreWalk false cs1 (Char.ofNat 94)
  | _ => underscoreWalk false cs1 (Char.ofNat 94)

/-- The IEEE-754 double overflow threshold: values whose magnitude reaches
`2^1024 - 2^970` round to infinity and make `ParseFloat` report
`ErrRange`. -/
def floatOverflowBound : Rat := mkRat ((2 ^ 1024 - 2 ^ 970 : Nat) : Int) 1

/-- `strconv.ParseFloat(s, 64)`, as the parsed value on success and `none`
on any error (syntax or range). -/
def goParseFloat (s : String) : Option FloatVal :=
  let cs := s.data
  match specialFull cs with
  | some fv => some fv
  | none =>
      match cs with
      | [] => none
      | c :: rest =>
          let neg := c = Char.ofNat 45
          let r := if c = Char.ofNat 43 ∨ c = Char.ofNat 45 then rest else cs
          let isHex : Bool := match r with
            | z :: x :: _ :: _ => z == Char.ofNat 48 && (lowerChar x).toNat == 120
            | _ => false
          let base := if isHex then 16 else 10
          let mantChars := if isHex then r.drop 2 else r
          let st := scanMan base mantChars ⟨0, 0, false, false, false, []⟩
          if ¬ st.sawDigits then none
          else
            let valueOf : Int → Option FloatVal := fun exp =>
              let scale : Int := exp - (st.afterDot : Int) * (if isHex then 4 else 1)
              let b : Nat := if isHex then 2 else 10
              let sgn : Int := if neg then -1 else 1
              let q : Rat :=
                if 0 ≤ scale then mkRat (sgn * st.mant * ((b ^ scale.toNat : Nat) : Int)) 1
                else mkRat (sgn * st.mant) (b ^ (-scale).toNat)
              if floatOverflowBound ≤ |q| then none else some (.fin q)
            match st.rest with
            | [] =>
                if isHex then none
                else if st.sawUnderscore && !(underscoreOK cs) then none
                else valueOf 0
            | e :: rest2 =>
                if (lowerChar e).toNat = (if isHex then 112 else 101) then
                  match scanExpFull rest2 with
                  | none => none
                  | some (exp, expU) =>
                      if (st.sawUnderscore || expU) && !(underscoreOK cs) then none
                      else valueOf exp
                else none

/-- Substring search on bytes (Go `strings.Contains`). -/
def containsSubL : List Char → List Char → Bool
  | [], sub => sub.isEmpty
  | hay@(_ :: rest), sub => sub.isPrefixOf hay || containsSubL rest sub

/-- Go `strings.Contains`. -/
def strContains (s sub : String) : Bool := containsSubL s.data sub.data

/-! ## C8: type inference (`inferType`, xml.go lines 339-353) -/

/-- `inferType`: the literal `true`/`false`, else `Atoi`, else `ParseFloat`
restricted to strings containing a dot, else the unchanged string.  (The
float branch requires a dot, which no `inf`/`nan` spelling contains, so the
parsed float is always finite there.) -/
def inferType (val : String) : Value :=
  if val = "true" then .vBool true
  else if val = "false" then .vBool false
  else
    match goAtoi val with
    | some i => .vInt i
    | none =>
        match goParseFloat val with
        | some fv =>
            if strContains val "." then
              (match fv with
                | .fin q => .vFloat q
                | _ => .vStr val)
            else .vStr val
        | none => .vStr val

/-- C8.  With inference on, the inferred value is: `true`/`false` for those
exact strings; the integer value when `Atoi` succeeds; the float value when
`Atoi` fails, `ParseFloat` succeeds and the string contains a dot; the
unchanged string otherwise. -/
theorem c8_infer_type (s : String) :
    (s = "true" → inferType s = .vBool true) ∧
    (s = "false" → inferType s = .vBool false) ∧
    (∀ n, s ≠ "true" → s ≠ "false" → goAtoi s = some n → inferType s = .vInt n) ∧
    (∀ q, s ≠ "true" → s ≠ "false" → goAtoi s = none →
      goParseFloat s = some (.fin q) → strContains s "." = true →
      inferType s = .vFloat q) ∧
    (s ≠ "true" → s ≠ "false" → goAtoi s = none →
      goParseFloat s = none ∨ strContains s "." = false →
      inferType s = .vStr s) := by
  refine ⟨?_, ?_, ?_, ?_, ?_⟩
  · intro h; simp [inferType, h]
  · intro h
    subst h
    simp [inferType]
  · intro n h1 h2 h3
    simp [inferType, h1, h2, h3]
  · intro q h1 h2 h3 h4 h5
    simp [inferType, h1, h2, h3, h4, h5]
  · intro h1 h2 h3 h4
    rcases h4 with h4 | h4
    · simp [inferType, h1, h2, h3, h4]
    · cases h5 : goParseFloat s with
      | none => simp [inferType, h1, h2, h3, h5]
      | some fv => cases fv <;> simp [inferType, h1, h2, h3, h4, h5]

/-- Witness for C8 at the concrete strings `true`, `42`, `3.14`, `1e5`
(parses as a float but has no dot, hence stays a string) and `abc`. -/
theorem c8_witness :
    inferType "true" = .vBool true ∧
    inferType "42" = .vInt 42 ∧
    inferType "3.14" = .vFloat (mkRat 157 50) ∧
    inferType "1e5" = .vStr "1e5" ∧
    inferType "abc" = .vStr "abc" := by
  refine ⟨(c8_infer_type "true").1 rfl, ?_, ?_, ?_, ?_⟩
  · exact (c8_infer_type "42").2.2.1 42 (by decide) (by decide) (by decide)
  · exact (c8_infer_type "3.14").2.2.2.1 (mkRat 157 50) (by decide) (by decide)
      (by decide) (by decide) (by decide)
  · exact (c8_infer_type "1e5").2.2.2.2 (by decide) (by decide) (by decide)
      (Or.inr (by decide))
  · exact (c8_infer_type "abc").2.2.2.2 (by decide) (by decide) (by decide)
      (Or.inl (by decide))

/-! ## C6: charset translator (part_013 lines 62-119: `windows1252Table`,
`latin1Reader.Read`, `charsetReader`) -/

/-- ASCII lower-casing of `strings.ToLower` (the charset names compared
against are ASCII; non-ASCII code points are left unchanged, which matches
`ToLower` wherever the comparison can succeed). -/
def asciiToLower (c : Char) : Char :=
  if 65 ≤ c.toNat ∧ c.toNat ≤ 90 then Char.ofNat (c.toNat + 32) else c

/-- `strings.ToLower`. -/
def strToLower (s : String) : String := String.mk (s.data.map asciiToLower)

/-- `windows1252Table` (part_013): the rune for every byte 0x00-0xFF.
Identity below 0x80 and from 0xA0 up; the Windows-1252 extension in
0x80-0x9F. -/
def windows1252List : List Nat :=
  [0x00, 0x01, 0x02, 0x03, 0x04, 0x05, 0x06, 0x07, 0x08, 0x09, 0x0A, 0x0B, 0x0C, 0x0D, 0x0E, 0x0F,
   0x10, 0x11, 0x12, 0x13, 0x14, 0x15, 0x16, 0x17, 0x18, 0x19, 0x1A, 0x1B, 0x1C, 0x1D, 0x1E, 0x1F,
   0x20, 0x21, 0x22, 0x23, 0x24, 0x25, 0x26, 0x27, 0x28, 0x29, 0x2A, 0x2B, 0x2C, 0x2D, 0x2E, 0x2F,
   0x30, 0x31, 0x32, 0x33, 0x34, 0x35, 0x36, 0x37, 0x38, 0x39, 0x3A, 0x3B, 0x3C, 0x3D, 0x3E, 0x3F,
   0x40, 0x41, 0x42, 0x43, 0x44, 0x45, 0x46, 0x47, 0x48, 0x49, 0x4A, 0x4B, 0x4C, 0x4D, 0x4E, 0x4F,
   0x50, 0x51, 0x52, 0x53, 0x54, 0x55, 0x56, 0x57, 0x58, 0x59, 0x5A, 0x5B, 0x5C, 0x5D, 0x5E, 0x5F,
   0x60, 0x61, 0x62, 0x63, 0x64, 0x65, 0x66, 0x67, 0x68, 0x69, 0x6A, 0x6B, 0x6C, 0x6D, 0x6E, 0x6F,
   0x70, 0x71, 0x72, 0x73, 0x74, 0x75, 0x76, 0x77, 0x78, 0x79, 0x7A, 0x7B, 0x7C, 0x7D, 0x7E, 0x7F,
   0x20AC, 0x0081, 0x201A, 0x0192, 0x201E, 0x2026, 0x2020, 0x2021, 0x02C6, 0x2030, 0x0160, 0x2039, 0x0152, 0x008D, 0x017D, 0x008F,
   0x0090, 0x2018, 0x2019, 0x201C, 0x201D, 0x2022, 0x2013, 0x2014, 0x02DC, 0x2122, 0x0161, 0x203A, 0x0153, 0x009D, 0x017E, 0x0178,
   0x00A0, 0x00A1, 0x00A2, 0x00A3, 0x00A4, 0x00A5, 0x00A6, 0x00A7, 0x00A8, 0x00A9, 0x00AA, 0x00AB, 0x00AC, 0x00AD, 0x00AE, 0x00AF,
   0x00B0, 0x00B1, 0x00B2, 0x00B3, 0x00B4, 0x00B5, 0x00B6, 0x00B7, 0x00B8, 0x00B9, 0x00BA, 0x00BB, 0x00BC, 0x00BD, 0x00BE, 0x00BF,
   0x00C0, 0x00C1, 0x00C2, 0x00C3, 0x00C4, 0x00C5, 0x00C6, 0x00C7, 0x00C8, 0x00C9, 0x00CA, 0x00CB, 0x00CC, 0x00CD, 0x00CE, 0x00CF,
   0x00D0, 0x00D1, 0x00D2, 0x00D3, 0x00D4, 0x00D5, 0x00D6, 0x00D7, 0x00D8, 0x00D9, 0x00DA, 0x00DB, 0x00DC, 0x00DD, 0x00DE, 0x00DF,
   0x00E0, 0x00E1, 0x00E2, 0x00E3, 0x00E4, 0x00E5, 0x00E6, 0x00E7, 0x00E8, 0x00E9, 0x00EA, 0x00EB, 0x00EC, 0x00ED, 0x00EE, 0x00EF,
   0x00F0, 0x00F1, 0x00F2, 0x00F3, 0x00F4, 0x00F5, 0x00F6, 0x00F7, 0x00F8, 0x00F9, 0x00FA, 0x00FB, 0x00FC, 0x00FD, 0x00FE, 0x00FF]

/-- Byte-indexed view of the table. -/
def windows1252Table (b : Nat) : Nat := windows1252List.getD b 0

/-- `utf8.EncodeRune` for the code points the table can produce (no
surrogates or invalid runes occur in it). -/
def utf8EncodeNat (r : Nat) : List Nat :=
  if r < 0x80 then [r]
  else if r < 0x800 then [0xC0 + r / 64, 0x80 + r % 64]
  else if r < 0x10000 then [0xE0 + r / 4096, 0x80 + (r / 64) % 64, 0x80 + r % 64]
  else [0xF0 + r / 262144, 0x80 + (r / 4096) % 64, 0x80 + (r / 64) % 64, 0x80 + r % 64]

mutual

/-- Decoder of well-formed UTF-8 byte sequences back to code points (used
to state what `latin1Reader` writes; it is a specification device, not
embedded code).  `utf8Dec2`, `utf8Dec3` and `utf8Dec4` consume the
continuation bytes of a two-, three- or four-byte sequence. -/
def utf8DecodeNats : List Nat → List Nat
  | [] => []
  | b :: rest =>
      if b < 0x80 then b :: utf8DecodeNats rest
      else if b < 0xE0 then utf8Dec2 b rest
      else if b < 0xF0 then utf8Dec3 b rest
      else utf8Dec4 b rest

/-- Continuation of a 2-byte UTF-8 sequence. -/
def utf8Dec2 (b : Nat) : List Nat → List Nat
  | c1 :: r2 => ((b - 0xC0) * 64 + (c1 - 0x80)) :: utf8DecodeNats r2
  | [] => []

/-- Continuation of a 3-byte UTF-8 sequence. -/
def utf8Dec3 (b : Nat) : List Nat → List Nat
  | c1 :: c2 :: r2 =>
      ((b - 0xE0) * 4096 + (c1 - 0x80) * 64 + (c2 - 0x80)) :: utf8DecodeNats r2
  | _ => []

/-- Continuation of a 4-byte UTF-8 sequence. -/
def utf8Dec4 (b : Nat) : List Nat → List Nat
  | c1 :: c2 :: c3 :: r2 =>
      ((b - 0xF0) * 262144 + (c1 - 0x80) * 4096 + (c2 - 0x80) * 64 + (c3 - 0x80)) ::
        utf8DecodeNats r2
  | _ => []

end

/-- The two decoders `charsetReader` can return. -/
inductive CharsetDecoder where
  | latin1
  | passthrough
deriving DecidableEq

/-- Cumulative byte output of the returned reader: `latin1Reader.Read`
writes, for each input byte `b` in order, `utf8.EncodeRune` of
`windows1252Table[b]` (its internal chunking only bounds how much one call
copies); pass-through returns the input reader unchanged. -/
def applyDecoder : CharsetDecoder → List Nat → List Nat
  | .passthrough, bs => bs
  | .latin1, bs => (bs.map (fun b => utf8EncodeNat (windows1252Table b))).flatten

/-- `charsetReader` (part_013 lines 108-119). -/
def charsetReader (charset : String) : Except String CharsetDecoder :=
  let c := strToLower charset
  if c = "iso-8859-1" ∨ c = "latin1" ∨ c = "windows-1252" ∨ c = "cp1252" then
    .ok .latin1
  else if c = "utf-8" ∨ c = "utf8" then .ok .passthrough
  else .error ("unsupported charset: " ++ c)

theorem applyLatin1_cons (b : Nat) (rest : List Nat) :
    applyDecoder .latin1 (b :: rest) =
      utf8EncodeNat (windows1252Table b) ++ applyDecoder .latin1 rest := by
  simp [applyDecoder]

theorem utf8_decode_encode_cons (r : Nat) (rest : List Nat) (h : r < 0xD800) :
    utf8DecodeNats (utf8EncodeNat r ++ rest) = r :: utf8DecodeNats rest := by
  by_cases h1 : r < 0x80
  · have he : utf8EncodeNat r = [r] := by rw [utf8EncodeNat, if_pos h1]
    rw [he, List.cons_append, List.nil_append, utf8DecodeNats, if_pos h1]
  · by_cases h2 : r < 0x800
    · have he : utf8EncodeNat r = [0xC0 + r / 64, 0x80 + r % 64] := by
        rw [utf8EncodeNat, if_neg h1, if_pos h2]
      rw [he]
      show utf8DecodeNats ((0xC0 + r / 64) :: (0x80 + r % 64) :: rest) = _
      rw [utf8DecodeNats, if_neg (by omega), if_pos (by omega), utf8Dec2]
      congr 1
      omega
    · have h3 : r < 0x10000 := by omega
      have he : utf8EncodeNat r = [0xE0 + r / 4096, 0x80 + (r / 64) % 64, 0x80 + r % 64] := by
        rw [utf8EncodeNat, if_neg h1, if_neg h2, if_pos h3]
      rw [he]
      show utf8DecodeNats
        ((0xE0 + r / 4096) :: (0x80 + (r / 64) % 64) :: (0x80 + r % 64) :: rest) = _
      rw [utf8DecodeNats, if_neg (by omega), if_neg (by omega), if_pos (by omega), utf8Dec3]
      congr 1
      omega

theorem windows1252Table_bounded : ∀ b < 256, windows1252Table b < 0xD800 := by decide

/-- C6.  `charsetReader` maps the four legacy names (case-insensitively) to
the Windows-1252 decoder — whose output, decoded back from UTF-8, is
exactly `windows1252Table[b]` for each input byte `b` in order — passes
`utf-8`/`utf8` through unchanged, and rejects every other name with the
unsupported-charset error.  The table is the identity outside `0x80-0x9F`
and the Windows-1252 superset inside it (e.g. byte `0x80` is U+20AC and
byte `0x93` is U+201C), which is why `iso-8859-1` documents with bytes in
`0x80-0x9F` still decode. -/
theorem c6_charset_reader (name : String) :
    (strToLower name = "iso-8859-1" ∨ strToLower name = "latin1" ∨
        strToLower name = "windows-1252" ∨ strToLower name = "cp1252" →
      charsetReader name = .ok .latin1) ∧
    (strToLower name = "utf-8" ∨ strToLower name = "utf8" →
      charsetReader name = .ok .passthrough ∧ (∀ bs, applyDecoder .passthrough bs = bs)) ∧
    (¬ (strToLower name = "iso-8859-1" ∨ strToLower name = "latin1" ∨
        strToLower name = "windows-1252" ∨ strToLower name = "cp1252" ∨
        strToLower name = "utf-8" ∨ strToLower name = "utf8") →
      charsetReader name = .error ("unsupported charset: " ++ strToLower name)) ∧
    (∀ bs : List Nat, (∀ b ∈ bs, b < 256) →
      utf8DecodeNats (applyDecoder .latin1 bs) = bs.map windows1252Table) ∧
    windows1252Table 0x80 = 0x20AC ∧ windows1252Table 0x93 = 0x201C ∧
    (∀ b, b < 0x80 → windows1252Table b = b) ∧
    (∀ b, b < 0x100 → 0xA0 ≤ b → windows1252Table b = b) := by
  refine ⟨?_, ?_, ?_, ?_, by decide, by decide, by decide, by decide⟩
  · intro h
    unfold charsetReader
    rw [if_pos h]
  · intro h
    refine ⟨?_, fun bs => rfl⟩
    unfold charsetReader
    rw [if_neg ?_, if_pos h]
    rcases h with h | h <;> rw [h] <;> decide
  · intro h
    unfold charsetReader
    rw [if_neg ?_, if_neg ?_] <;> tauto
  · intro bs hb
    induction bs with
    | nil => rfl
    | cons b rest ih =>
        have hblt : b < 256 := hb b (List.mem_cons_self b rest)
        rw [applyLatin1_cons,
          utf8_decode_encode_cons _ _ (windows1252Table_bounded b hblt),
          ih (fun x hx => hb x (List.mem_cons_of_mem b hx)), List.map_cons]

/-- Witness for C6: the legacy name `ISO-8859-1` (upper case) yields the
Windows-1252 decoder; byte `0x93` decodes to U+201C and byte `0xE9` to
U+00E9; `UTF-8` passes through; `koi8-r` is rejected. -/
theorem c6_witness :
    charsetReader "ISO-8859-1" = .ok .latin1 ∧
    utf8DecodeNats (applyDecoder .latin1 [0x93, 0xE9]) = [0x201C, 0xE9] ∧
    charsetReader "UTF-8" = .ok .passthrough ∧
    charsetReader "koi8-r" = .error "unsupported charset: koi8-r" := by
  refine ⟨?_, ?_, ?_, ?_⟩
  · exact (c6_charset_reader "ISO-8859-1").1 (by decide)
  · have := (c6_charset_reader "x").2.2.2.1 [0x93, 0xE9] (by decide)
    rw [this]
    decide
  · exact ((c6_charset_reader "UTF-8").2.1 (by decide)).1
  · exact (c6_charset_reader "koi8-r").2.2.1 (by decide)

/-! ## C7: force-array child assignment (xml.go lines 275-289, the
"ASSIGN TO PARENT" step of `MapXML`'s `EndElement` case) -/

/-- Step 5 of `MapXML`'s end-element handling: the finished child value is
stored under its tag — directly (or as a singleton sequence when the tag is
in `forceArray`) when the key is absent, appended when a sequence is
already there, and promoted to a two-element sequence otherwise. -/
def assignToParent (forceArray : String → Bool) (parent : OMap) (tagName : String)
    (finalValue : Value) : OMap :=
  match omGet parent tagName with
  | none =>
      if forceArray tagName then omPut parent tagName (.vArr [finalValue])
      else omPut parent tagName finalValue
  | some (.vArr list) => omPut parent tagName (.vArr (list ++ [finalValue]))
  | some existing => omPut parent tagName (.vArr [existing, finalValue])

theorem omGet_omPut_self (es : OMap) (k : String) (v : Value) :
    omGet (omPut es k v) k = some v := by
  induction es with
  | nil => simp [omPut, omGet]
  | cons e rest ih =>
      obtain ⟨k0, v0⟩ := e
      by_cases h : k0 = k <;> simp [omPut, omGet, h, ih]

theorem assignToParent_append (fa : String → Bool) (tag : String) :
    ∀ (vs : List Value) (p : OMap) (l : List Value),
      omGet p tag = some (.vArr l) →
      omGet (vs.foldl (fun q v => assignToParent fa q tag v) p) tag =
        some (.vArr (l ++ vs)) := by
  intro vs
  induction vs with
  | nil => intro p l h; simpa using h
  | cons v rest ih =>
      intro p l h
      have hstep : omGet (assignToParent fa p tag v) tag = some (.vArr (l ++ [v])) := by
        unfold assignToParent
        rw [h]
        exact omGet_omPut_self p tag _
      have := ih (assignToParent fa p tag v) (l ++ [v]) hstep
      simpa [List.append_assoc] using this

/-- C7.  When `tagName` is configured in `forceArray` and the key is not
yet present, processing any non-empty run of occurrences stores a sequence
under the key — a singleton for a single occurrence — holding exactly the
occurrence values in document order. -/
theorem c7_force_array (fa : String → Bool) (tag : String) (parent : OMap)
    (hfa : fa tag = true) (habs : omGet parent tag = none) :
    ∀ (v0 : Value) (vs : List Value),
      omGet ((v0 :: vs).foldl (fun q v => assignToParent fa q tag v) parent) tag =
        some (.vArr (v0 :: vs)) := by
  intro v0 vs
  have hfirst : omGet (assignToParent fa parent tag v0) tag = some (.vArr [v0]) := by
    unfold assignToParent
    rw [habs, if_pos hfa]
    exact omGet_omPut_self parent tag _
  have := assignToParent_append fa tag vs (assignToParent fa parent tag v0) [v0] hfirst
  simpa using this

/-- Witness for C7: with `book` in `forceArray`, one `<book>` yields a
singleton sequence and a second occurrence appends in document order. -/
theorem c7_witness :
    omGet ([Value.vStr "One"].foldl
        (fun q v => assignToParent (fun t => t == "book") q "book" v) []) "book" =
      some (.vArr [Value.vStr "One"]) ∧
    omGet ([Value.vStr "One", Value.vStr "Two"].foldl
        (fun q v => assignToParent (fun t => t == "book") q "book" v) []) "book" =
      some (.vArr [Value.vStr "One", Value.vStr "Two"]) :=
  ⟨c7_force_array (fun t => t == "book") "book" [] (by decide) rfl (Value.vStr "One") [],
   c7_force_array (fun t => t == "book") "book" [] (by decide) rfl (Value.vStr "One")
     [Value.vStr "Two"]⟩

/-! ## Query engine (query.go: `QueryAll`, `parseSegment`, `matchFilter`,
`findAllRecursively`, `Query`)

The process-wide custom-function registry (`getQueryFunction`, guarded by a
readers-writer lock in Go) is passed as an explicit association list. -/

/-- The custom key-predicate registry. -/
abbrev QueryReg := List (String × (String → Bool))

/-- `getQueryFunction`. -/
def getQueryFunction (reg : QueryReg) (name : String) : Option (String → Bool) :=
  (reg.find? (fun e => e.1 = name)).map Prod.snd

/-- Go `s[a:b]` (byte slicing; the embedded code only slices at match
boundaries, where byte and character positions cut the same prefix). -/
def strSlice (s : String) (a b : Nat) : String := String.mk ((s.data.take b).drop a)

/-- Index of the leftmost occurrence of `sub` (Go `strings.Index`, as an
`Option` instead of `-1`). -/
def indexOfSub : List Char → List Char → Option Nat
  | hay, sub =>
      if sub.isPrefixOf hay then some 0
      else
        match hay with
        | [] => none
        | _ :: rest => (indexOfSub rest sub).map (· + 1)

/-- Go `strings.Split` with a one-character separator (the embedded code
splits only on `/` and `,`). -/
def splitChar (c : Char) : List Char → List Char → List String
  | [], acc => [String.mk acc.reverse]
  | x :: rest, acc =>
      if x = c then String.mk acc.reverse :: splitChar c rest []
      else splitChar c rest (x :: acc)

/-- `unicode.IsSpace` (the white-space set `strings.TrimSpace` strips). -/
def goIsSpace (c : Char) : Bool :=
  c.toNat ∈ [0x9, 0xA, 0xB, 0xC, 0xD, 0x20, 0x85, 0xA0, 0x1680, 0x2000, 0x2001, 0x2002,
    0x2003, 0x2004, 0x2005, 0x2006, 0x2007, 0x2008, 0x2009, 0x200A, 0x2028, 0x2029,
    0x202F, 0x205F, 0x3000]

/-- `strings.TrimSpace`. -/
def goTrimSpace (s : String) : String :=
  String.mk (((s.data.dropWhile goIsSpace).reverse.dropWhile goIsSpace).reverse)

/-- `strings.Trim` with a cutset. -/
def goTrimCutset (s : String) (cutset : List Char) : String :=
  String.mk (((s.data.dropWhile (· ∈ cutset)).reverse.dropWhile (· ∈ cutset)).reverse)

/-- The cutset `'"` of `parseSegment`'s quote stripping. -/
def quoteChars : List Char := [Char.ofNat 39, Char.ofNat 34]

/-- `strings.SplitN(s, sep, 2)` when `sep` is known to occur: the pieces
before and after its first occurrence. -/
def splitN2 (s sep : String) : String × String :=
  match indexOfSub s.data sep.data with
  | some i => (strSlice s 0 i, strSlice s (i + sep.data.length) s.data.length)
  | none => (s, "")

/-- `filterParams` (query.go). -/
structure FilterParams where
  key : String
  op : String
  val : String
  isFunc : Bool
deriving DecidableEq

/-- The operator table of `parseSegment`, in its checking order (two-rune
operators before their one-rune substrings). -/
def segOps : List String := ["!=", ">=", "<=", "=", ">", "<"]

/-- The operator scan of `parseSegment`. -/
def findOp (inside : String) : List String → Option String
  | [] => none
  | op :: rest => if strContains inside op then some op else findOp inside rest

/-- Steps 2 (operators) and 3 (index fallback) of `parseSegment`. -/
def parseSegAfterFunc (key : String) (inside : String) : String × Option FilterParams × Int :=
  match findOp inside segOps with
  | some op =>
      let parts := splitN2 inside op
      (key, some ⟨goTrimSpace parts.1, op, goTrimCutset (goTrimSpace parts.2) quoteChars,
        false⟩, -1)
  | none =>
      match goAtoi inside with
      | some v => (key, none, v)
      | none => (key, none, -1)

/-- `parseSegment` (query.go lines 233-276): strips one `[...]` suffix when
the bracket is not at position 0 and the segment ends with `]`, then tries
a two-argument function call, the relational operators, and finally an
integer index; anything else leaves the bare key with no filter and index
`-1`. -/
def parseSegment (seg : String) : String × Option FilterParams × Int :=
  match indexOfSub seg.data "[".data with
  | some i =>
      if 0 < i ∧ strEndsWith seg "]" then
        let key := strSlice seg 0 i
        let inside := strSlice seg (i + 1) (seg.data.length - 1)
        if strContains inside "(" ∧ strContains inside ")" then
          let pIndex := (indexOfSub inside.data "(".data).getD 0
          let funcName := goTrimSpace (strSlice inside 0 pIndex)
          let argsStr := strSlice inside (pIndex + 1) (inside.data.length - 1)
          match splitChar (Char.ofNat 44) argsStr.data [] with
          | [a0, a1] =>
              (key, some ⟨goTrimSpace a0, funcName,
                goTrimCutset (goTrimSpace a1) quoteChars, true⟩, -1)
          | _ => parseSegAfterFunc key inside
        else parseSegAfterFunc key inside
      else (seg, none, -1)
  | none => (seg, none, -1)

/-- IEEE `<` on parsed floats (`NaN` compares false). -/
def fvLt : FloatVal → FloatVal → Bool
  | .nan, _ => false
  | _, .nan => false
  | .inf n1, .inf n2 => n1 && !n2
  | .inf n1, .fin _ => n1
  | .fin _, .inf n2 => !n2
  | .fin a, .fin b => decide (a < b)

/-- IEEE `<=` on parsed floats. -/
def fvLe : FloatVal → FloatVal → Bool
  | .nan, _ => false
  | _, .nan => false
  | .inf n1, .inf n2 => (n1 == n2) || (n1 && !n2)
  | .inf n1, .fin _ => n1
  | .fin _, .inf n2 => !n2
  | .fin a, .fin b => decide (a ≤ b)

/-- `matchFilter` (query.go): resolve `key` (or `@key`) on a map item,
stringify, then apply the function or operator; relational operators parse
both sides as floats and fail closed. -/
def matchFilter (item : Value) (fp : FilterParams) : Bool :=
  let looked : Option Value :=
    match item with
    | .vMap m =>
        (match omGet m fp.key with
          | some v => some v
          | none => omGet m ("@" ++ fp.key))
    | .vPmap m =>
        (match omGet m fp.key with
          | some v => some v
          | none => omGet m ("@" ++ fp.key))
    | _ => none
  match looked with
  | none => false
  | some actual =>
      let actualStr := sprintfV actual
      if fp.isFunc then
        if fp.op = "contains" then strContains actualStr fp.val
        else if fp.op = "starts-with" then strStartsWith actualStr fp.val
        else false
      else if fp.op = "=" then actualStr == fp.val
      else if fp.op = "!=" then actualStr != fp.val
      else if fp.op = ">" ∨ fp.op = "<" ∨ fp.op = ">=" ∨ fp.op = "<=" then
        match goParseFloat actualStr, goParseFloat fp.val with
        | some a, some b =>
            if fp.op = ">" then fvLt b a
            else if fp.op = "<" then fvLt a b
            else if fp.op = ">=" then fvLe b a
            else fvLe a b
        | _, _ => false
      else false

/-- The `#count` aggregation of `QueryAll`. -/
def countOf : Value → Nat
  | .vArr l => l.length
  | .vMap m => omLen m
  | .vPmap m => m.length
  | _ => 0

/-- Scalar check of the smart-`#text` shortcut (`string`, `int`,
`float64`, `bool`). -/
def isScalar : Value → Bool
  | .vStr _ => true
  | .vInt _ => true
  | .vFloat _ => true
  | .vBool _ => true
  | _ => false

/-- The `valuesToProcess` collection of `QueryAll` for one node: wildcard,
custom function, or direct key, on an `OrderedMap` (insertion order) or a
plain map (lexicographic key order). -/
def valuesFor (reg : QueryReg) (key : String) : Value → List Value
  | .vMap m =>
      if key = "*" then
        (m.filter (fun e => !(strStartsWith e.1 "@") && !(strStartsWith e.1 "#"))).map Prod.snd
      else if strStartsWith key "func:" then
        match getQueryFunction reg (strDrop key 5) with
        | some fn =>
            (m.filter (fun e =>
              (!(strStartsWith e.1 "@") && !(strStartsWith e.1 "#")) && fn e.1)).map Prod.snd
        | none => []
      else
        (match omGet m key with
          | some v => [v]
          | none => [])
  | .vPmap m =>
      if key = "*" then
        (sortStrings ((omKeys m).filter (fun k =>
          !(strStartsWith k "@") && !(strStartsWith k "#")))).flatMap (fun k =>
            match omGet m k with
            | some v => [v]
            | none => [])
      else if strStartsWith key "func:" then
        match getQueryFunction reg (strDrop key 5) with
        | some fn =>
            (sortStrings ((omKeys m).filter (fun k =>
              (!(strStartsWith k "@") && !(strStartsWith k "#")) && fn k))).flatMap (fun k =>
                match omGet m k with
                | some v => [v]
                | none => [])
        | none => []
      else
        (match omGet m key with
          | some v => [v]
          | none => [])
  | _ => []

/-- The filter/index/select processing of one found value. -/
def applySel (fp : Option FilterParams) (idx : Int) (val : Value) : List Value :=
  match fp with
  | some p =>
      (match val with
        | .vArr list => list.filter (fun item => matchFilter item p)
        | _ => if matchFilter val p then [val] else [])
  | none =>
      if 0 ≤ idx then
        (match val with
          | .vArr list =>
              (match list.get? idx.toNat with
                | some x => [x]
                | none => [])
          | _ => [])
      else [val]

/-- Per-node processing of one segment (the inner `for _, node` loop). -/
def queryStepNode (reg : QueryReg) (seg : String) (node : Value) : List Value :=
  match parseSegment seg with
  | (key, fp, idx) =>
      if key = "#text" ∧ isScalar node then [node]
      else (valuesFor reg key node).flatMap (applySel fp idx)

/-- Per-candidate processing of one segment: `#count` replaces the
candidate with its cardinality; otherwise a sequence candidate is searched
item by item. -/
def queryStepCandidate (reg : QueryReg) (seg : String) (cand : Value) : List Value :=
  if seg = "#count" then [.vInt (countOf cand)]
  else
    (match cand with
      | .vArr l => l
      | c => [c]).flatMap (queryStepNode reg seg)

/-- One segment transforming the candidate list. -/
def queryStep (reg : QueryReg) (seg : String) (cands : List Value) : List Value :=
  cands.flatMap (queryStepCandidate reg seg)

/-- The segment loop of `QueryAll`: empty segments are skipped, and an
empty candidate list returns `(nil, nil)` — an empty result and a nil
error. -/
def queryGo (reg : QueryReg) : List String → List Value → Except String (List Value)
  | [], cur => .ok cur
  | seg :: rest, cur =>
      if seg = "" then queryGo reg rest cur
      else
        let next := queryStep reg seg cur
        if next.isEmpty then .ok [] else queryGo reg rest next

/-- `findAllRecursively` (the `//name` deep search), with nesting fuel. -/
def findAllRec (fuel : Nat) (node : Value) (target : String) : List Value :=
  match fuel with
  | 0 => []
  | n + 1 =>
      match node with
      | .vMap m =>
          (match omGet m target with
            | some v => [v]
            | none => []) ++
          (m.map (fun e => findAllRec n e.2 target)).flatten
      | .vPmap m =>
          (match omGet m target with
            | some v => [v]
            | none => []) ++
          ((sortStrings (omKeys m)).map (fun k =>
            match omGet m k with
            | some v => findAllRec n v target
            | none => [])).flatten
      | .vArr l => (l.map (fun it => findAllRec n it target)).flatten
      | _ => []

/-- `QueryAll` (query.go lines 52-221): empty path returns the data; a
`//` prefix runs the deep search; otherwise the segment loop.  Every
return site carries a nil error. -/
def QueryAll (reg : QueryReg) (data : Value) (path : String) :
    Except String (List Value) :=
  if path = "" then .ok [data]
  else if strStartsWith path "//" then
    .ok (findAllRec (2 * sizeV data + 2) data (strDrop path 2))
  else queryGo reg (splitChar (Char.ofNat 47) path.data []) [data]

/-- `Query` (query.go lines 391-401): first result of `QueryAll`, or the
`not found` error when the result list is empty. -/
def Query (reg : QueryReg) (data : Value) (path : String) : Except String Value :=
  match QueryAll reg data path with
  | .error e => .error e
  | .ok res =>
      match res with
      | [] => .error "not found"
      | r :: _ => .ok r

/-! ## C4: query totality and the `Query` / `QueryAll` contract -/

theorem queryGo_ok (reg : QueryReg) :
    ∀ (segs : List String) (cur : List Value), ∃ l, queryGo reg segs cur = .ok l := by
  intro segs
  induction segs with
  | nil => intro cur; exact ⟨cur, rfl⟩
  | cons seg rest ih =>
      intro cur
      by_cases h : seg = ""
      · rw [queryGo, if_pos h]
        exact ih cur
      · rw [queryGo, if_neg h]
        by_cases h2 : (queryStep reg seg cur).isEmpty
        · rw [if_pos h2]; exact ⟨[], rfl⟩
        · rw [if_neg h2]; exact ih _

theorem queryAll_ok (reg : QueryReg) (data : Value) (path : String) :
    ∃ l, QueryAll reg data path = .ok l := by
  unfold QueryAll
  by_cases h1 : path = ""
  · rw [if_pos h1]; exact ⟨[data], rfl⟩
  · rw [if_neg h1]
    by_cases h2 : strStartsWith path "//" = true
    · rw [if_pos h2]; exact ⟨_, rfl⟩
    · rw [if_neg h2]; exact queryGo_ok reg _ _

/-- C4.  `QueryAll` never returns an error — a path that matches nothing
yields the empty list — and `Query` fails with `not found` exactly when
`QueryAll`'s list is empty, returning its first element otherwise. -/
theorem c4_query_totality (reg : QueryReg) (data : Value) (path : String) :
    (∃ l, QueryAll reg data path = .ok l) ∧
    (∀ l, QueryAll reg data path = .ok l →
      ((Query reg data path = .error "not found" ↔ l = []) ∧
       (∀ x xs, l = x :: xs → Query reg data path = .ok x))) := by
  constructor
  · exact queryAll_ok reg data path
  · intro l hok
    constructor
    · unfold Query
      rw [hok]
      cases l with
      | nil => simp
      | cons x xs => simp
    · intro x xs hl
      unfold Query
      rw [hok, hl]

/-- Witness for C4: a missing path yields `ok []` and a `not found` from
`Query`; a present path yields its first match. -/
theorem c4_witness :
    QueryAll [] (.vMap [("a", .vStr "1")]) "zz" = .ok [] ∧
    Query [] (.vMap [("a", .vStr "1")]) "zz" = .error "not found" ∧
    Query [] (.vMap [("a", .vStr "1")]) "a" = .ok (.vStr "1") := by
  have h1 : QueryAll [] (.vMap [("a", .vStr "1")]) "zz" = .ok [] := rfl
  have h2 : QueryAll [] (.vMap [("a", .vStr "1")]) "a" = .ok [.vStr "1"] := rfl
  refine ⟨h1, ?_, ?_⟩
  · exact ((c4_query_totality [] (.vMap [("a", .vStr "1")]) "zz").2 [] h1).1.mpr rfl
  · exact ((c4_query_totality [] (.vMap [("a", .vStr "1")]) "a").2 [.vStr "1"] h2).2
      (.vStr "1") [] rfl

/-! ## C10: bracket expressions that parse as neither index, operator
filter, nor function call are silently dropped -/

theorem containsSubL_isSome (sub : List Char) :
    ∀ cs : List Char, containsSubL cs sub = (indexOfSub cs sub).isSome := by
  intro cs
  induction cs with
  | nil =>
      rw [containsSubL, indexOfSub]
      cases sub with
      | nil => rfl
      | cons c r => rfl
  | cons c rest ih =>
      rw [containsSubL, indexOfSub]
      cases hx : sub.isPrefixOf (c :: rest) <;>
        simp only [hx, Bool.false_or, Bool.true_or, if_pos, if_neg, Bool.false_eq_true,
          ite_true, ite_false, Option.isSome_some, ih]
      cases indexOfSub rest sub <;> rfl

theorem containsSubL_singleton (c0 : Char) :
    ∀ cs : List Char, containsSubL cs [c0] = cs.contains c0 := by
  intro cs
  induction cs with
  | nil => rfl
  | cons c rest ih =>
      rw [containsSubL, ih]
      show (((c0 == c) && List.isPrefixOf [] rest) || _) = _
      rw [List.contains_cons]
      cases hx : c0 == c
      · simp [List.isPrefixOf]
      · simp [List.isPrefixOf]

theorem indexOfSub_not_found (sub : List Char) :
    ∀ cs : List Char, containsSubL cs sub = false → indexOfSub cs sub = none := by
  intro cs h
  have := containsSubL_isSome sub cs
  rw [h] at this
  cases hx : indexOfSub cs sub
  · rfl
  · rw [hx] at this; simp at this

theorem indexOfSub_first_char (c0 : Char) :
    ∀ (cs : List Char) (t : List Char), cs.contains c0 = false →
      indexOfSub (cs ++ c0 :: t) [c0] = some cs.length := by
  intro cs
  induction cs with
  | nil =>
      intro t _
      have hp : [c0].isPrefixOf (c0 :: t) = true := isPrefixOf_append_self [c0] t
      rw [List.nil_append, indexOfSub, if_pos hp]
      rfl
  | cons c rest ih =>
      intro t h
      rw [List.contains_cons] at h
      have hne : (c0 == c) = false := by
        cases hx : c0 == c
        · rfl
        · rw [hx] at h; simp at h
      have hrest : rest.contains c0 = false := by
        cases hx : rest.contains c0
        · rfl
        · rw [hx] at h; simp at h
      rw [List.cons_append, indexOfSub, if_neg ?_]
      · rw [ih t hrest]
        rfl
      · show ¬ (((c0 == c) && List.isPrefixOf [] (rest ++ c0 :: t)) = true)
        rw [hne]
        simp

theorem splitChar_no_sep (sep : Char) :
    ∀ (cs : List Char) (acc : List Char), cs.contains sep = false →
      splitChar sep cs acc = [String.mk (acc.reverse ++ cs)] := by
  intro cs
  induction cs with
  | nil => intro acc _; rw [splitChar, List.append_nil]
  | cons c rest ih =>
      intro acc h
      rw [List.contains_cons] at h
      have hne : ¬ (c = sep) := by
        intro he
        subst he
        simp at h
      rw [splitChar, if_neg hne, ih (c :: acc) ?_]
      · rw [List.reverse_cons, List.append_assoc]
        rfl
      · cases hx : rest.contains sep
        · rfl
        · rw [hx] at h; simp at h

theorem strEndsWith_last (c : Char) (l : List Char) :
    strEndsWith (String.mk (l ++ [c])) (String.mk [c]) = true := by
  show List.isSuffixOf [c] (l ++ [c]) = true
  rw [List.isSuffixOf, List.reverse_append]
  simp [List.isPrefixOf]

theorem string_mk_data (s : String) : String.mk s.data = s := by
  cases s; rfl

theorem string_ne_empty_of_data (s : String) (h : s.data ≠ []) : s ≠ "" := by
  intro he
  subst he
  exact h rfl

theorem findOp_none (inside : String) :
    ∀ ops : List String, (∀ op ∈ ops, strContains inside op = false) →
      findOp inside ops = none := by
  intro ops
  induction ops with
  | nil => intro _; rfl
  | cons op rest ih =>
      intro h
      rw [findOp, if_neg ?_]
      · exact ih (fun o ho => h o (List.mem_cons_of_mem op ho))
      · rw [h op (List.mem_cons_self op rest)]
        simp

theorem parseSegAfterFunc_fall (key expr : String)
    (hops : ∀ op ∈ segOps, strContains expr op = false)
    (hidx : ∀ n : Int, goAtoi expr = some n → n < 0) :
    ∃ i : Int, parseSegAfterFunc key expr = (key, none, i) ∧ i < 0 := by
  unfold parseSegAfterFunc
  rw [findOp_none expr segOps hops]
  cases h : goAtoi expr with
  | none => exact ⟨-1, rfl, by decide⟩
  | some v => exact ⟨v, rfl, hidx v h⟩

/-- The bracket-expression condition of C10: `expr` is not a two-argument
function call in the sense of `parseSegment`'s step 1. -/
def notFuncCall (expr : String) : Prop :=
  ¬ (strContains expr "(" = true ∧ strContains expr ")" = true ∧
    (splitChar (Char.ofNat 44) (strSlice expr
      ((indexOfSub expr.data "(".data).getD 0 + 1) (expr.data.length - 1)).data []).length = 2)

theorem parseSegment_bracket (key expr : String)
    (hkey_ne : key ≠ "")
    (hkey_nb : strContains key "[" = false)
    (hops : ∀ op ∈ segOps, strContains expr op = false)
    (hfun : notFuncCall expr)
    (hidx : ∀ n : Int, goAtoi expr = some n → n < 0) :
    ∃ i : Int, parseSegment (key ++ "[" ++ expr ++ "]") = (key, none, i) ∧ i < 0 := by
  have hdata : (key ++ "[" ++ expr ++ "]").data =
      key.data ++ "[".data ++ expr.data ++ "]".data := by
    rw [string_data_append, string_data_append, string_data_append]
  have hkc : key.data.contains (Char.ofNat 91) = false := by
    have := containsSubL_singleton (Char.ofNat 91) key.data
    rw [← this]
    exact hkey_nb
  have hklen : 0 < key.data.length := by
    cases hk : key.data with
    | nil => exact absurd (by cases key with | mk d => cases hk; rfl) hkey_ne
    | cons a b => simp
  have hidx0 : indexOfSub (key ++ "[" ++ expr ++ "]").data "[".data =
      some key.data.length := by
    rw [hdata, List.append_assoc, List.append_assoc]
    have : ("[".data ++ (expr.data ++ "]".data)) = Char.ofNat 91 :: (expr.data ++ "]".data) :=
      rfl
    rw [this]
    exact indexOfSub_first_char (Char.ofNat 91) key.data _ hkc
  have hends : strEndsWith (key ++ "[" ++ expr ++ "]") "]" = true := by
    have h1 : (key ++ "[" ++ expr ++ "]").data =
        (key.data ++ Char.ofNat 91 :: expr.data) ++ [Char.ofNat 93] := by
      rw [hdata]
      simp [List.append_assoc]
    have h2 := strEndsWith_last (Char.ofNat 93) (key.data ++ Char.ofNat 91 :: expr.data)
    rw [← h1] at h2
    rw [string_mk_data] at h2
    exact h2
  have hlen : (key ++ "[" ++ expr ++ "]").data.length =
      key.data.length + 1 + expr.data.length + 1 := by
    rw [hdata]
    simp [List.length_append]
    omega
  have hkey_slice : strSlice (key ++ "[" ++ expr ++ "]") 0 key.data.length = key := by
    unfold strSlice
    rw [hdata, List.append_assoc, List.append_assoc, List.take_left, List.drop_zero,
      string_mk_data]
  have hinside : strSlice (key ++ "[" ++ expr ++ "]") (key.data.length + 1)
      ((key ++ "[" ++ expr ++ "]").data.length - 1) = expr := by
    unfold strSlice
    rw [hlen, hdata]
    have harr : key.data ++ "[".data ++ expr.data ++ "]".data =
        (key.data ++ [Char.ofNat 91]) ++ (expr.data ++ [Char.ofNat 93]) := by
      simp [List.append_assoc]
    rw [harr]
    have hl1 : key.data.length + 1 + expr.data.length + 1 - 1 =
        (key.data ++ [Char.ofNat 91]).length + expr.data.length := by
      simp [List.length_append]
    rw [hl1, List.take_append, List.take_left]
    have hl2 : key.data.length + 1 = (key.data ++ [Char.ofNat 91]).length := by
      simp
    rw [hl2, List.drop_left]
  unfold parseSegment
  rw [hidx0]
  simp only [hklen, hends, true_and, and_self, if_pos]
  rw [hkey_slice, hinside]
  by_cases hp : strContains expr "(" = true ∧ strContains expr ")" = true
  · rw [if_pos hp]
    have hlen2 : (splitChar (Char.ofNat 44) (strSlice expr
        ((indexOfSub expr.data "(".data).getD 0 + 1) (expr.data.length - 1)).data []).length ≠
        2 := by
      intro h2
      exact hfun ⟨hp.1, hp.2, h2⟩
    cases hargs : splitChar (Char.ofNat 44) (strSlice expr
        ((indexOfSub expr.data "(".data).getD 0 + 1) (expr.data.length - 1)).data [] with
    | nil => exact parseSegAfterFunc_fall key expr hops hidx
    | cons a0 rest =>
        cases rest with
        | nil => exact parseSegAfterFunc_fall key expr hops hidx
        | cons a1 rest2 =>
            cases rest2 with
            | nil =>
                exact absurd (by rw [hargs]; rfl) hlen2
            | cons a2 rest3 => exact parseSegAfterFunc_fall key expr hops hidx
  · rw [if_neg hp]
    exact parseSegAfterFunc_fall key expr hops hidx

theorem parseSegment_plain (key : String) (h : strContains key "[" = false) :
    parseSegment key = (key, none, -1) := by
  unfold parseSegment
  rw [indexOfSub_not_found "[".data key.data h]

theorem queryStepNode_bracket_eq (reg : QueryReg) (seg key : String) (i : Int)
    (hp : parseSegment seg = (key, none, i)) (hi : i < 0)
    (hpk : parseSegment key = (key, none, -1)) (node : Value) :
    queryStepNode reg seg node = queryStepNode reg key node := by
  unfold queryStepNode
  simp only [hp, hpk]
  by_cases ht : key = "#text" ∧ isScalar node = true
  · rw [if_pos ht, if_pos ht]
  · rw [if_neg ht, if_neg ht]
    have hsel : applySel none i = applySel none (-1) := by
      funext val
      unfold applySel
      rw [if_neg (by omega : ¬ (0 : Int) ≤ i), if_neg (by decide : ¬ (0 : Int) ≤ -1)]
    rw [hsel]

theorem queryStepCandidate_bracket_eq (reg : QueryReg) (seg key : String) (i : Int)
    (hp : parseSegment seg = (key, none, i)) (hi : i < 0)
    (hpk : parseSegment key = (key, none, -1))
    (hsc : seg ≠ "#count") (hkc : key ≠ "#count") (cand : Value) :
    queryStepCandidate reg seg cand = queryStepCandidate reg key cand := by
  unfold queryStepCandidate
  rw [if_neg hsc, if_neg hkc]
  have hnode : queryStepNode reg seg = queryStepNode reg key := by
    funext node
    exact queryStepNode_bracket_eq reg seg key i hp hi hpk node
  rw [hnode]

theorem bracket_seg_ne_count (key expr : String) : (key ++ "[" ++ expr ++ "]") ≠ "#count" := by
  intro h
  have hd : (key ++ "[" ++ expr ++ "]").data = "#count".data := congrArg String.data h
  rw [string_data_append, string_data_append, string_data_append] at hd
  have hm : Char.ofNat 91 ∈ key.data ++ "[".data ++ expr.data ++ "]".data := by
    apply List.mem_append_left
    apply List.mem_append_left
    apply List.mem_append_right
    exact List.mem_singleton.mpr rfl
  rw [hd] at hm
  exact absurd hm (by decide)

theorem contains_append_false (a : Char) :
    ∀ l1 l2 : List Char, l1.contains a = false → l2.contains a = false →
      (l1 ++ l2).contains a = false := by
  intro l1
  induction l1 with
  | nil => intro l2 _ h2; simpa using h2
  | cons c r ih =>
      intro l2 h1 h2
      rw [List.cons_append, List.contains_cons]
      rw [List.contains_cons] at h1
      cases hx : a == c
      · rw [Bool.false_or]
        apply ih
        · cases hy : r.contains a
          · rfl
          · rw [hx, hy] at h1; simp at h1
        · exact h2
      · rw [hx] at h1; simp at h1

theorem startsWith_dslash_false (s : String)
    (h : s.data.contains (Char.ofNat 47) = false) (hne : s.data ≠ []) :
    strStartsWith s "//" = false := by
  cases hd : s.data with
  | nil => exact absurd hd hne
  | cons c rest =>
      have hcne : (Char.ofNat 47 == c) = false := by
        cases hx : Char.ofNat 47 == c
        · rfl
        · exfalso
          have : Char.ofNat 47 = c := eq_of_beq hx
          rw [this] at h
          rw [hd] at h
          simp [List.contains_cons] at h
      show List.isPrefixOf "//".data s.data = false
      rw [hd]
      show ((Char.ofNat 47 == c) && List.isPrefixOf [Char.ofNat 47] rest) = false
      rw [hcne]
      rfl

/-- C10.  A bracket expression that is neither a non-negative index, nor an
operator comparison, nor a two-argument function call is silently dropped:
`parseSegment` yields the bare key with no filter and a negative index,
`QueryAll` evaluates the segment exactly as the bare key, and no
invalid-predicate error is produced (`QueryAll` still succeeds). -/
theorem c10_bracket_expression_ignored (reg : QueryReg) (data : Value) (key expr : String)
    (hkey_ne : key ≠ "")
    (hkey_nb : strContains key "[" = false)
    (hkey_ns : strContains key "/" = false)
    (hkey_nc : key ≠ "#count")
    (hexpr_ns : strContains expr "/" = false)
    (hops : ∀ op ∈ segOps, strContains expr op = false)
    (hfun : notFuncCall expr)
    (hidx : ∀ n : Int, goAtoi expr = some n → n < 0) :
    (∃ i : Int, parseSegment (key ++ "[" ++ expr ++ "]") = (key, none, i) ∧ i < 0) ∧
    QueryAll reg data (key ++ "[" ++ expr ++ "]") = QueryAll reg data key ∧
    (∃ l, QueryAll reg data (key ++ "[" ++ expr ++ "]") = .ok l) := by
  obtain ⟨i, hp, hi⟩ := parseSegment_bracket key expr hkey_ne hkey_nb hops hfun hidx
  have hpk : parseSegment key = (key, none, -1) := parseSegment_plain key hkey_nb
  have hdata : (key ++ "[" ++ expr ++ "]").data =
      key.data ++ "[".data ++ expr.data ++ "]".data := by
    rw [string_data_append, string_data_append, string_data_append]
  have hkdne : key.data ≠ [] := by
    intro he
    exact hkey_ne (by cases key with | mk d => cases he; rfl)
  have hsegdne : (key ++ "[" ++ expr ++ "]").data ≠ [] := by
    rw [hdata]
    cases hk : key.data with
    | nil => exact absurd hk hkdne
    | cons a b => simp
  have hkslash : key.data.contains (Char.ofNat 47) = false := by
    rw [← containsSubL_singleton (Char.ofNat 47) key.data]
    exact hkey_ns
  have heslash : expr.data.contains (Char.ofNat 47) = false := by
    rw [← containsSubL_singleton (Char.ofNat 47) expr.data]
    exact hexpr_ns
  have hsegslash : (key ++ "[" ++ expr ++ "]").data.contains (Char.ofNat 47) = false := by
    rw [hdata]
    apply contains_append_false
    apply contains_append_false
    apply contains_append_false
    · exact hkslash
    · decide
    · exact heslash
    · decide
  have hsplit_seg : splitChar (Char.ofNat 47) (key ++ "[" ++ expr ++ "]").data [] =
      [key ++ "[" ++ expr ++ "]"] := by
    rw [splitChar_no_sep (Char.ofNat 47) _ [] hsegslash]
    rw [List.reverse_nil, List.nil_append, string_mk_data]
  have hsplit_key : splitChar (Char.ofNat 47) key.data [] = [key] := by
    rw [splitChar_no_sep (Char.ofNat 47) _ [] hkslash]
    rw [List.reverse_nil, List.nil_append, string_mk_data]
  have hstep : queryStep reg (key ++ "[" ++ expr ++ "]") = queryStep reg key := by
    funext cands
    unfold queryStep
    have hcand : queryStepCandidate reg (key ++ "[" ++ expr ++ "]") =
        queryStepCandidate reg key := by
      funext cand
      exact queryStepCandidate_bracket_eq reg _ key i hp hi hpk
        (bracket_seg_ne_count key expr) hkey_nc cand
    rw [hcand]
  have hqa : QueryAll reg data (key ++ "[" ++ expr ++ "]") = QueryAll reg data key := by
    unfold QueryAll
    rw [if_neg (string_ne_empty_of_data _ hsegdne), if_neg (string_ne_empty_of_data _ hkdne)]
    rw [if_neg ?hs1, if_neg ?hs2]
    case hs1 =>
      rw [startsWith_dslash_false _ hsegslash hsegdne]
      simp
    case hs2 =>
      rw [startsWith_dslash_false _ hkslash hkdne]
      simp
    rw [hsplit_seg, hsplit_key]
    unfold queryGo
    rw [if_neg (string_ne_empty_of_data _ hsegdne), if_neg (string_ne_empty_of_data _ hkdne)]
    rw [hstep]
  exact ⟨⟨i, hp, hi⟩, hqa, queryAll_ok reg data _⟩

/-- Witness for C10 at the segment `item[foo]`: the bracket is dropped and
the query behaves as the bare `item`. -/
theorem c10_witness :
    parseSegment "item[foo]" = ("item", none, -1) ∧
    QueryAll [] (.vMap [("item", .vStr "7")]) "item[foo]" =
      QueryAll [] (.vMap [("item", .vStr "7")]) "item" ∧
    QueryAll [] (.vMap [("item", .vStr "7")]) "item[foo]" = .ok [.vStr "7"] := by
  have h := c10_bracket_expression_ignored [] (.vMap [("item", .vStr "7")]) "item" "foo"
    (by decide) (by decide) (by decide) (by decide) (by decide)
    (by
      intro op hop
      simp only [segOps, List.mem_cons, List.not_mem_nil, or_false] at hop
      rcases hop with rfl | rfl | rfl | rfl | rfl | rfl <;> decide)
    (by
      intro hcontr
      exact absurd hcontr.1 (by decide))
    (by
      intro n hn
      rw [show goAtoi "foo" = none from rfl] at hn
      exact Option.noConfusion hn)
  rw [show ("item" ++ "[" ++ "foo" ++ "]" : String) = "item[foo]" from rfl] at h
  refine ⟨by decide, h.2.1, ?_⟩
  rw [h.2.1]
  rfl

/-!
## C5: sanitizeSoup (src/xml/sanitize_soup.go)

For each raw-text tag in order, `sanitizeSoup` replaces every match of the
regular expression `(?is)(<tag(?:>|\s[^>]*>))(.*?)(</tag>)` by
openTag ++ "<![CDATA[" ++ content-with-split-terminators ++ "]]>" ++ closeTag,
where every CDATA terminator inside the content is first rewritten to the
split sequence.  We embed the regex by its deterministic leftmost-first
semantics: the opening-tag alternation is forced by the character after the
tag name, the lazy group reaches exactly to the first closing tag, searching
restarts after each match, and case folding on the ASCII tag letters is
ASCII lower-casing.
-/

/-- ASCII-case-insensitive character equality, as Go's regexp folds the
ASCII letters of the raw-text tag patterns. -/
def ciEqChar (a b : Char) : Bool := asciiToLower a == asciiToLower b

def ciIsPrefixOf : List Char → List Char → Bool
  | [], _ => true
  | _ :: _, [] => false
  | a :: as, b :: bs => ciEqChar a b && ciIsPrefixOf as bs

/-- The Perl whitespace class of Go's regexp (tab, newline, form feed,
carriage return, space). -/
def reSpace (c : Char) : Bool :=
  c.toNat == 9 || c.toNat == 10 || c.toNat == 12 || c.toNat == 13 || c.toNat == 32

def indexOfChar (c : Char) : List Char → Option Nat
  | [] => none
  | x :: r => if x == c then some 0 else (indexOfChar c r).map (fun j => j + 1)

/-- First index at which `pat` is a case-insensitive prefix of a suffix. -/
def indexOfCi (pat : List Char) : List Char → Option Nat
  | [] => if pat.isEmpty then some 0 else none
  | s@(_ :: r) =>
      if ciIsPrefixOf pat s then some 0 else (indexOfCi pat r).map (fun j => j + 1)

/-- Length of the opening-tag match of the alternation
`<tag(?:>|\s[^>]*>)` at the head of `s`, if the regex matches there.
The alternation is deterministic: the character right after the tag name
selects the branch, and in the second branch the attribute characters run
to the first greater-than sign. -/
def matchOpenLen (tag : List Char) (s : List Char) : Option Nat :=
  if ciIsPrefixOf (Char.ofNat 60 :: tag) s then
    match s.drop (tag.length + 1) with
    | [] => none
    | c :: cs =>
        if c.toNat == 62 then some (tag.length + 2)
        else if reSpace c then
          match indexOfChar (Char.ofNat 62) cs with
          | some j => some (tag.length + 3 + j)
          | none => none
        else none
  else none

/-- The closing-tag pattern `</tag>`. -/
def closePat (tag : List Char) : List Char :=
  Char.ofNat 60 :: Char.ofNat 47 :: (tag ++ [Char.ofNat 62])

def cdataOpenL : List Char := "<![CDATA[".data
def cdataCloseL : List Char := "]]>".data
def cdataSplitL : List Char := "]]]]><![CDATA[>".data

/-- One `re.ReplaceAllFunc` pass for a single tag: scan left to right; at a
match, emit the opening tag, the CDATA-wrapped content with terminators
split, and the closing tag, then continue after the match; otherwise advance
one character.  Fuel decreases every step; `length + 1` always suffices. -/
def sanitizeTagGo : Nat → List Char → List Char → List Char
  | 0, _, s => s
  | n + 1, tag, s =>
      match s with
      | [] => []
      | c :: rest =>
          match matchOpenLen tag s with
          | some oLen =>
              match indexOfCi (closePat tag) (s.drop oLen) with
              | some cIdx =>
                  let afterOpen := s.drop oLen
                  let content := afterOpen.take cIdx
                  let cLen := tag.length + 3
                  s.take oLen ++ cdataOpenL ++
                    replaceAllL content.length content cdataCloseL cdataSplitL ++
                    cdataCloseL ++ (afterOpen.drop cIdx).take cLen ++
                    sanitizeTagGo n tag (afterOpen.drop (cIdx + cLen))
              | none => c :: sanitizeTagGo n tag rest
          | none => c :: sanitizeTagGo n tag rest

def rawTags : List String := ["script", "style", "code", "pre", "textarea"]

/-- `sanitizeSoup`: the five raw-text tag passes applied in order. -/
def sanitizeSoup (s : String) : String :=
  String.mk (rawTags.foldl (fun d tag => sanitizeTagGo (d.length + 1) tag.data d) s.data)

theorem sanitizeTagGo_id (tag : List Char) :
    ∀ (n : Nat) (s : List Char),
      indexOfCi (Char.ofNat 60 :: tag) s = none → sanitizeTagGo n tag s = s := by
  intro n
  induction n with
  | zero => intro s _; rfl
  | succ n ih =>
      intro s h
      match s with
      | [] => rfl
      | c :: rest =>
          rw [indexOfCi] at h
          by_cases hp : ciIsPrefixOf (Char.ofNat 60 :: tag) (c :: rest) = true
          · rw [if_pos hp] at h
            exact absurd h (by simp)
          · rw [if_neg hp] at h
            have hrest : indexOfCi (Char.ofNat 60 :: tag) rest = none := by
              cases hx : indexOfCi (Char.ofNat 60 :: tag) rest with
              | none => rfl
              | some j => rw [hx] at h; simp at h
            have hm : matchOpenLen tag (c :: rest) = none := by
              unfold matchOpenLen
              rw [if_neg hp]
            rw [sanitizeTagGo]
            simp only [hm]
            rw [ih rest hrest]

theorem sanitizeSoupData_id (l : List Char)
    (h : ∀ tag ∈ rawTags, indexOfCi (Char.ofNat 60 :: tag.data) l = none) :
    rawTags.foldl (fun d tag => sanitizeTagGo (d.length + 1) tag.data d) l = l := by
  simp only [rawTags, List.foldl]
  rw [sanitizeTagGo_id "script".data _ l (h "script" (by simp [rawTags]))]
  rw [sanitizeTagGo_id "style".data _ l (h "style" (by simp [rawTags]))]
  rw [sanitizeTagGo_id "code".data _ l (h "code" (by simp [rawTags]))]
  rw [sanitizeTagGo_id "pre".data _ l (h "pre" (by simp [rawTags]))]
  rw [sanitizeTagGo_id "textarea".data _ l (h "textarea" (by simp [rawTags]))]

/-- C5 counterexample: `sanitizeSoup` is not the identity on an input whose
script interior is already CDATA-wrapped — it wraps it a second time,
splitting the embedded terminator — and composing `sanitizeSoup` with itself
differs from a single application. -/
theorem c5_counterexample :
    sanitizeSoup "<script><![CDATA[foo]]></script>"
        ≠ "<script><![CDATA[foo]]></script>" ∧
    sanitizeSoup (sanitizeSoup "<script>foo</script>")
        ≠ sanitizeSoup "<script>foo</script>" := by
  constructor
  · intro h
    rw [show sanitizeSoup "<script><![CDATA[foo]]></script>"
          = "<script><![CDATA[<![CDATA[foo]]]]><![CDATA[>]]></script>" from rfl] at h
    exact absurd h (by decide)
  · intro h
    rw [show sanitizeSoup "<script>foo</script>"
          = "<script><![CDATA[foo]]></script>" from rfl] at h
    rw [show sanitizeSoup "<script><![CDATA[foo]]></script>"
          = "<script><![CDATA[<![CDATA[foo]]]]><![CDATA[>]]></script>" from rfl] at h
    exact absurd h (by decide)

/-- C5 (amended): `sanitizeSoup` re-wraps an already-CDATA-wrapped raw-text
interior, splitting the embedded terminator, so it is not idempotent in
general; it is the identity — and hence idempotent — on every input with no
case-insensitive occurrence of a less-than sign followed by a raw-text tag
name. -/
theorem c5_sanitize_soup_amended (s : String)
    (h : ∀ tag ∈ rawTags, indexOfCi (Char.ofNat 60 :: tag.data) s.data = none) :
    sanitizeSoup "<script><![CDATA[foo]]></script>"
        = "<script><![CDATA[<![CDATA[foo]]]]><![CDATA[>]]></script>" ∧
    sanitizeSoup s = s ∧
    sanitizeSoup (sanitizeSoup s) = sanitizeSoup s := by
  have hid : sanitizeSoup s = s := by
    unfold sanitizeSoup
    rw [sanitizeSoupData_id s.data h, string_mk_data]
  exact ⟨rfl, hid, by simp only [hid]⟩

/-!
## C9: Stream.IterWithContext (src/xml/streaming_decoder.go)

The producer goroutine's loop, as a transition system.  Each iteration: a
select on the cancellation context (Done wins or the default branch is
taken), then one `decoder.Token()` call; EOF or a read error returns; a
matching start element that decodes performs a send selected against the
cancellation signal; any other token loops.  The deferred `close(ch)` runs
on every return path.  The scheduler's choices are an oracle: per iteration,
whether cancellation is observed at the head select and, when a send occurs,
whether it is observed at the send select.  A `.tok` step stands for one
`Token()` call together with the `DecodeElement` it may trigger; its Boolean
says whether it produced a decodable matching item to send.
-/

inductive TokRes where
  | eof : TokRes
  | err : TokRes
  | tok (isItem : Bool) : TokRes
deriving DecidableEq

inductive Ev where
  | read : Ev
  | send : Ev
  | close : Ev
deriving DecidableEq

/-- Trace of observable events of one producer run: `toks` is the sequence of
results successive `decoder.Token()` calls would return, `obs` the
scheduler's per-iteration choices (cancellation observed at the head select,
cancellation observed at the send select). -/
def producerRun (toks : List TokRes) (obs : List (Bool × Bool)) : List Ev :=
  if (obs.headD (false, false)).1 then [.close]
  else
    match toks with
    | [] => [.close]
    | .eof :: _ => [.read, .close]
    | .err :: _ => [.read, .close]
    | .tok true :: rest =>
        if (obs.headD (false, false)).2 then [.read, .close]
        else .read :: .send :: producerRun rest obs.tail
    | .tok false :: rest => .read :: producerRun rest obs.tail

theorem producerRun_cancelHead (toks : List TokRes) (obs : List (Bool × Bool))
    (h : (obs.headD (false, false)).1 = true) : producerRun toks obs = [.close] := by
  rw [producerRun.eq_def, if_pos h]

theorem producerRun_empty (obs : List (Bool × Bool))
    (h : ¬ (obs.headD (false, false)).1 = true) : producerRun [] obs = [.close] := by
  rw [producerRun.eq_def, if_neg h]

theorem producerRun_eof (rest : List TokRes) (obs : List (Bool × Bool))
    (h : ¬ (obs.headD (false, false)).1 = true) :
    producerRun (.eof :: rest) obs = [.read, .close] := by
  rw [producerRun.eq_def, if_neg h]

theorem producerRun_err (rest : List TokRes) (obs : List (Bool × Bool))
    (h : ¬ (obs.headD (false, false)).1 = true) :
    producerRun (.err :: rest) obs = [.read, .close] := by
  rw [producerRun.eq_def, if_neg h]

theorem producerRun_sendCancel (rest : List TokRes) (obs : List (Bool × Bool))
    (h : ¬ (obs.headD (false, false)).1 = true)
    (hs : (obs.headD (false, false)).2 = true) :
    producerRun (.tok true :: rest) obs = [.read, .close] := by
  rw [producerRun.eq_def, if_neg h]
  show (if (obs.headD (false, false)).2 = true then [Ev.read, Ev.close]
        else Ev.read :: Ev.send :: producerRun rest obs.tail) = [Ev.read, Ev.close]
  rw [if_pos hs]

theorem producerRun_send (rest : List TokRes) (obs : List (Bool × Bool))
    (h : ¬ (obs.headD (false, false)).1 = true)
    (hs : ¬ (obs.headD (false, false)).2 = true) :
    producerRun (.tok true :: rest) obs
      = .read :: .send :: producerRun rest obs.tail := by
  rw [producerRun.eq_def, if_neg h]
  show (if (obs.headD (false, false)).2 = true then [Ev.read, Ev.close]
        else Ev.read :: Ev.send :: producerRun rest obs.tail)
      = Ev.read :: Ev.send :: producerRun rest obs.tail
  rw [if_neg hs]

theorem producerRun_skip (rest : List TokRes) (obs : List (Bool × Bool))
    (h : ¬ (obs.headD (false, false)).1 = true) :
    producerRun (.tok false :: rest) obs = .read :: producerRun rest obs.tail := by
  rw [producerRun.eq_def, if_neg h]

theorem producerRun_closes :
    ∀ (toks : List TokRes) (obs : List (Bool × Bool)),
      producerRun toks obs ≠ [] ∧
      (producerRun toks obs).getLast? = some .close ∧
      (producerRun toks obs).count .close = 1 := by
  intro toks
  induction toks with
  | nil =>
      intro obs
      by_cases h : (obs.headD (false, false)).1 = true
      · rw [producerRun_cancelHead [] obs h]; exact ⟨by decide, by decide, by decide⟩
      · rw [producerRun_empty obs h]; exact ⟨by decide, by decide, by decide⟩
  | cons t rest ih =>
      intro obs
      by_cases h : (obs.headD (false, false)).1 = true
      · rw [producerRun_cancelHead (t :: rest) obs h]
        exact ⟨by decide, by decide, by decide⟩
      · match t with
        | .eof =>
            rw [producerRun_eof rest obs h]; exact ⟨by decide, by decide, by decide⟩
        | .err =>
            rw [producerRun_err rest obs h]; exact ⟨by decide, by decide, by decide⟩
        | .tok false =>
            rw [producerRun_skip rest obs h]
            obtain ⟨hne, hlast, hcnt⟩ := ih obs.tail
            obtain ⟨c, l, hcl⟩ := List.exists_cons_of_ne_nil hne
            rw [hcl] at hlast hcnt
            rw [hcl]
            refine ⟨by simp, ?_, ?_⟩
            · rw [List.getLast?_cons_cons]; exact hlast
            · simp only [List.count_cons] at hcnt ⊢
              simpa using hcnt
        | .tok true =>
            by_cases hs : (obs.headD (false, false)).2 = true
            · rw [producerRun_sendCancel rest obs h hs]
              exact ⟨by decide, by decide, by decide⟩
            · rw [producerRun_send rest obs h hs]
              obtain ⟨hne, hlast, hcnt⟩ := ih obs.tail
              obtain ⟨c, l, hcl⟩ := List.exists_cons_of_ne_nil hne
              rw [hcl] at hlast hcnt
              rw [hcl]
              refine ⟨by simp, ?_, ?_⟩
              · rw [List.getLast?_cons_cons, List.getLast?_cons_cons]; exact hlast
              · simp only [List.count_cons] at hcnt ⊢
                simpa using hcnt

/-- C9: once cancellation is observed at the loop-head select the producer
reads no further tokens, sends nothing and closes the channel at once; when
it is observed at the send select of a pending item, the send is abandoned
and the channel closed with no further reads; and every run — cancelled or
not — terminates with the channel closed exactly once, as the last event. -/
theorem c9_stream_cancellation :
    ∀ (toks : List TokRes) (obs : List (Bool × Bool)),
      (∀ sc : Bool, producerRun toks ((true, sc) :: obs) = [.close]) ∧
      (∀ rest : List TokRes,
          producerRun (.tok true :: rest) ((false, true) :: obs) = [.read, .close]) ∧
      producerRun toks obs ≠ [] ∧
      (producerRun toks obs).getLast? = some .close ∧
      (producerRun toks obs).count .close = 1 := by
  intro toks obs
  refine ⟨fun sc => ?_, fun rest => ?_, producerRun_closes toks obs⟩
  · exact producerRun_cancelHead toks ((true, sc) :: obs) (by simp)
  · exact producerRun_sendCancel rest ((false, true) :: obs) (by simp) (by simp)

theorem c5_witness :
    (∀ tag ∈ rawTags,
        indexOfCi (Char.ofNat 60 :: tag.data) "<p>hi</p>".data = none) ∧
    sanitizeSoup "<p>hi</p>" = "<p>hi</p>" := by
  have h : ∀ tag ∈ rawTags,
      indexOfCi (Char.ofNat 60 :: tag.data) "<p>hi</p>".data = none := by decide
  exact ⟨h, (c5_sanitize_soup_amended "<p>hi</p>" h).2.1⟩

end GoXml
